import Mathlib

/-!
Verification development for the elasticache hot-shard debugger.

This file gives a shallow embedding, in Lean 4, of the pure core of the
repository:

* `parse_monitor_line` (src/elasticache_monitor/utils.py, lines 6-30):
  the Redis MONITOR line parser, built from the Python regex
  `([\d.]+)\s+\[(\d+)\s+([\d.:a-fA-F]+):(\d+)\]\s+"([^"]+)"(?:\s+"([^"]+)")?`
  applied with `re.match`.  Because every pair of adjacent sub-patterns in
  that regex draws from disjoint character classes, Python's backtracking
  search is equivalent to the maximal-munch scanner embedded below; the one
  interior backtracking point (`([\d.:a-fA-F]+):(\d+)\]`) resolves to
  "split at the last colon whose suffix is a nonempty digit run", which
  `splitIpPort` implements directly.

* `extract_key_pattern` (utils.py, lines 33-62): six successive `re.sub`
  passes.  Each pass is embedded as an instance of the generic scanner
  `reSub`, whose matcher argument reproduces the specific regex's
  leftmost-and-greedy matching behaviour (derived by hand for each of the
  six fixed patterns; each derivation is documented at the matcher).

* the per-shard status dictionaries and the total-command reconciliation
  of the `/api/jobs/{job_id}/status` endpoint
  (web/main.py `get_job_status`, web/models.py `MonitorShard`).

Modelling conventions: Python strings are `List Char` / `String` with the
regex classes `\d`, `\s`, `\w` read in their ASCII meaning; Python floats
produced by `float(<digits-and-dots>)` are modelled as exact decimal
rationals; `None` is `Option.none`; an exception caught by the
`try/except` in `parse_monitor_line` is modelled by the `Except` layer
`parseExc`, which the catch-all collapses to `none`.
-/

/-- ASCII decimal digit, the byte-level reading of the regex class `\d`. -/
def isDigitC (c : Char) : Bool := '0' ≤ c && c ≤ '9'

/-- ASCII hexadecimal digit, the reading of `[0-9a-f]` under `re.IGNORECASE`. -/
def isHexC (c : Char) : Bool :=
  isDigitC c || ('a' ≤ c && c ≤ 'f') || ('A' ≤ c && c ≤ 'F')

/-- ASCII word character, the byte-level reading of `\w` (used by `\b`). -/
def isWordC (c : Char) : Bool :=
  isDigitC c || ('a' ≤ c && c ≤ 'z') || ('A' ≤ c && c ≤ 'Z') || c = '_'

/-- ASCII whitespace, the byte-level reading of the regex class `\s`. -/
def isWsC (c : Char) : Bool :=
  c = ' ' || c = '\t' || c = '\n' || c = '\r' || c = '\x0b' || c = '\x0c'

/-- Length of the longest prefix of `l` all of whose characters satisfy `q`
(the "leading run" of `q`-characters). -/
def crun (q : Char → Bool) : List Char → Nat
  | [] => 0
  | c :: cs => if q c then crun q cs + 1 else 0

/-- Leading decimal-digit run length. -/
def drun (l : List Char) : Nat := crun isDigitC l

/-- Leading hexadecimal run length. -/
def hrun (l : List Char) : Nat := crun isHexC l

/-- Word-boundary test on the left of a position: `\b` holds before a word
character exactly when the previous character (if any) is a non-word
character.  `none` is the start of the string. -/
def bdryB : Option Char → Bool
  | none => true
  | some c => !isWordC c

/-- Word-boundary test on the right of a run of word characters: the next
character must be absent (end of string) or a non-word character. -/
def nonWordHead : List Char → Bool
  | [] => true
  | c :: _ => !isWordC c

/--
Generic embedding of `re.sub(pattern, repl, s)` for the patterns appearing
in `extract_key_pattern`.  The scanner walks the string left to right; at
each position the matcher `M` receives the previous character (for `\b`
look-behind; `none` at the start of the string) and the remaining suffix,
and returns `some n` when the pattern matches there consuming `n + 1`
characters.  On a match the replacement is emitted and scanning resumes
immediately after the consumed text, exactly as `re.sub` does (replacement
text is never rescanned); otherwise one character is kept.  None of the six
patterns can match the empty string, so total consumption is always
positive, matching `re.sub`'s progress on these patterns.
-/
def reSubF (M : Option Char → List Char → Option Nat) (R : List Char) :
    Nat → Option Char → List Char → List Char
  | 0, _, l => l
  | _ + 1, _, [] => []
  | f + 1, p, c :: cs =>
    match M p (c :: cs) with
    | some n => R ++ reSubF M R f ((c :: cs)[n]?) (cs.drop n)
    | none => c :: reSubF M R f (some c) cs

/-- `reSub M R p l` runs the scanner with enough fuel for the whole string
(each step consumes at least one input character). -/
def reSub (M : Option Char → List Char → Option Nat) (R : List Char)
    (p : Option Char) (l : List Char) : List Char :=
  reSubF M R l.length p l

/-- The fuel argument of `reSubF` is irrelevant once it is at least the
input length. -/
theorem reSubF_fuel (M : Option Char → List Char → Option Nat) (R : List Char) :
    ∀ f g p l, l.length ≤ f → l.length ≤ g →
      reSubF M R f p l = reSubF M R g p l := by
  intro f
  induction f with
  | zero =>
    intro g p l hf _
    have : l = [] := List.length_eq_zero.mp (Nat.le_zero.mp hf)
    subst this
    cases g <;> rfl
  | succ f ih =>
    intro g p l hf hg
    cases l with
    | nil => cases g <;> rfl
    | cons c cs =>
      cases g with
      | zero => exact absurd hg (by simp)
      | succ g =>
        simp only [reSubF]
        cases M p (c :: cs) with
        | none =>
          simp only [List.cons.injEq, true_and]
          exact ih g (some c) cs (Nat.le_of_succ_le_succ hf) (Nat.le_of_succ_le_succ hg)
        | some n =>
          simp only [List.append_cancel_left_eq]
          have hlen : (c :: cs).length = cs.length + 1 := rfl
          have hle : (cs.drop n).length ≤ cs.length := by simp [List.length_drop]
          have hd : (cs.drop n).length ≤ f := by omega
          have hd' : (cs.drop n).length ≤ g := by omega
          exact ih g ((c :: cs)[n]?) (cs.drop n) hd hd'

/-- Unfolding equation of the scanner on the empty string. -/
theorem reSub_nil (M : Option Char → List Char → Option Nat) (R : List Char)
    (p : Option Char) : reSub M R p [] = [] := rfl

/-- Unfolding equation of the scanner on a nonempty string: match and
replace, or keep one character, exactly as `re.sub` scans. -/
theorem reSub_cons (M : Option Char → List Char → Option Nat) (R : List Char)
    (p : Option Char) (c : Char) (cs : List Char) :
    reSub M R p (c :: cs) =
      match M p (c :: cs) with
      | some n => R ++ reSub M R ((c :: cs)[n]?) (cs.drop n)
      | none => c :: reSub M R (some c) cs := by
  show reSubF M R (cs.length + 1) p (c :: cs) = _
  simp only [reSubF]
  cases M p (c :: cs) with
  | none =>
    simp only [List.cons.injEq, true_and]
    exact reSubF_fuel M R cs.length cs.length (some c) cs (le_refl _) (le_refl _)
  | some n =>
    simp only [List.append_cancel_left_eq]
    refine reSubF_fuel M R cs.length (cs.drop n).length ((c :: cs)[n]?) (cs.drop n) ?_ (le_refl _)
    simp [List.length_drop]

/-- Exact test for the 8-4-4-4-12 case-insensitive UUID template
`[0-9a-f]{8}-[0-9a-f]{4}-[0-9a-f]{4}-[0-9a-f]{4}-[0-9a-f]{12}` on a list of
exactly 36 characters.  All repetition counts in the pattern are exact, so
the regex matches at a position iff the next 36 characters fit this
template. -/
def isUuid36 (t : List Char) : Bool :=
  t.length = 36 &&
  (t.take 8).all isHexC && t[8]? = some '-' &&
  ((t.drop 9).take 4).all isHexC && t[13]? = some '-' &&
  ((t.drop 14).take 4).all isHexC && t[18]? = some '-' &&
  ((t.drop 19).take 4).all isHexC && t[23]? = some '-' &&
  ((t.drop 24).take 12).all isHexC

/-- Matcher for pass 1, `re.sub(r'[0-9a-f]{8}-...-[0-9a-f]{12}', '{UUID}', key,
flags=re.IGNORECASE)`: fires iff the next 36 characters are a UUID. -/
def uuidM (_ : Option Char) (y : List Char) : Option Nat :=
  if isUuid36 (y.take 36) then some 35 else none

/-- Matcher for pass 2, `re.sub(r'\d{10,13}', '{TIMESTAMP}', key)`: the greedy
bounded repetition takes `min(run, 13)` digits whenever the leading digit run
has length at least 10 (there is no trailing context, so no backtracking). -/
def tsM (_ : Option Char) (y : List Char) : Option Nat :=
  if 10 ≤ drun y then some (min (drun y) 13 - 1) else none

/-- Exact test for the date template `\d{4}-\d{2}-\d{2}` on a list of exactly
10 characters (all repetition counts exact). -/
def isDate10 (t : List Char) : Bool :=
  t.length = 10 &&
  (t.take 4).all isDigitC && t[4]? = some '-' &&
  ((t.drop 5).take 2).all isDigitC && t[7]? = some '-' &&
  ((t.drop 8).take 2).all isDigitC

/-- Matcher for pass 3, `re.sub(r'\d{4}-\d{2}-\d{2}', '{DATE}', key)`. -/
def dateM (_ : Option Char) (y : List Char) : Option Nat :=
  if isDate10 (y.take 10) then some 9 else none

/-- Matcher for pass 4, `re.sub(r':\d{10,}:', ':{USERID}:', key)`: after the
opening colon the greedy `\d{10,}` takes the whole digit run (shrinking it
would leave a digit where `:` is required, so backtracking cannot succeed);
the match therefore fires iff the run has length at least 10 and the
character right after it is a colon, consuming through that colon. -/
def usr1M (_ : Option Char) (y : List Char) : Option Nat :=
  match y with
  | ':' :: z => if 10 ≤ drun z && (z.drop (drun z)).head? = some ':'
      then some (drun z + 1) else none
  | _ => none

/-- Matcher for pass 5, `re.sub(r':\d{10,}$', ':{USERID}', key)`: as in
`usr1M` the whole digit run is taken; `$` (without `re.MULTILINE`) matches at
the end of the string or just before a final newline, and is zero-width, so
only the colon and the digits are consumed. -/
def usr2M (_ : Option Char) (y : List Char) : Option Nat :=
  match y with
  | ':' :: z => if 10 ≤ drun z &&
        (decide (z.drop (drun z) = []) || decide (z.drop (drun z) = ['\n']))
      then some (drun z) else none
  | _ => none

/-- Matcher for pass 6, `re.sub(r'\b[0-9a-f]{32,}\b', '{HASH}', key,
flags=re.IGNORECASE)`: the greedy `{32,}` takes the whole leading hex run
(shrinking leaves a hex = word character where `\b` is required, so
backtracking cannot succeed); the match fires iff the position is at a left
word boundary, the run has length at least 32, and the character after the
run is absent or a non-word character. -/
def hashM (p : Option Char) (y : List Char) : Option Nat :=
  if bdryB p && 32 ≤ hrun y && nonWordHead (y.drop (hrun y))
  then some (hrun y - 1) else none

/-- One octet-plus-dot step of the IPv4 pattern: `\d{1,3}\.`.  The greedy
`\d{1,3}` must take the entire leading digit run (a shorter take leaves a
digit where `.` is required), so the step succeeds iff that run has length
1..3 and is followed by a literal dot; it returns the characters consumed
including the dot, and the rest. -/
def octDot (y : List Char) : Option (Nat × List Char) :=
  if 1 ≤ drun y && drun y ≤ 3 && (y.drop (drun y)).head? = some '.'
  then some (drun y + 1, y.drop (drun y + 1)) else none

/-- Matcher for pass 7 (the sixth substitution),
`re.sub(r'\b\d{1,3}\.\d{1,3}\.\d{1,3}\.\d{1,3}\b', '{IP}', key)`: three
octet-dot steps, a final octet whose full digit run must have length 1..3,
and word boundaries on both sides (for the same greedy-run reason as in
`hashM`, no backtracking alternative can succeed). -/
def ipM (p : Option Char) (y : List Char) : Option Nat :=
  if bdryB p then
    match octDot y with
    | none => none
    | some (n1, y1) =>
      match octDot y1 with
      | none => none
      | some (n2, y2) =>
        match octDot y2 with
        | none => none
        | some (n3, y3) =>
          if 1 ≤ drun y3 && drun y3 ≤ 3 && nonWordHead (y3.drop (drun y3))
          then some (n1 + n2 + n3 + drun y3 - 1) else none
  else none

/-- Pass 1: UUIDs become `{UUID}`. -/
def uuidSub (l : List Char) : List Char :=
  reSub uuidM ("{UUID}".toList) none l

/-- Pass 2: 10-13 digit runs become `{TIMESTAMP}`. -/
def tsSub (l : List Char) : List Char :=
  reSub tsM ("{TIMESTAMP}".toList) none l

/-- Pass 3: `YYYY-MM-DD` dates become `{DATE}`. -/
def dateSub (l : List Char) : List Char :=
  reSub dateM ("{DATE}".toList) none l

/-- Pass 4: `:<10+ digits>:` becomes `:{USERID}:`. -/
def usr1Sub (l : List Char) : List Char :=
  reSub usr1M (":{USERID}:".toList) none l

/-- Pass 5: a trailing `:<10+ digits>` becomes `:{USERID}`. -/
def usr2Sub (l : List Char) : List Char :=
  reSub usr2M (":{USERID}".toList) none l

/-- Pass 6: word-bounded hex runs of length 32+ become `{HASH}`. -/
def hashSub (l : List Char) : List Char :=
  reSub hashM ("{HASH}".toList) none l

/-- Pass 7: word-bounded dotted-quad IPv4 addresses become `{IP}`. -/
def ipSub (l : List Char) : List Char :=
  reSub ipM ("{IP}".toList) none l

/-- The composition of the six substitution passes of `extract_key_pattern`,
in source order (UUID, TIMESTAMP, DATE, the two USERID forms, HASH, IP). -/
def applySubs (s : String) : String :=
  String.mk (ipSub (hashSub (usr2Sub (usr1Sub (dateSub (tsSub (uuidSub s.toList)))))))

/-- Embedding of `extract_key_pattern` (utils.py lines 33-62): a falsy key
(`None` or the empty string, per `if not key`) yields the sentinel
`"NO_KEY"`; otherwise the six substitutions are applied cumulatively. -/
def extract_key_pattern (key : Option String) : String :=
  match key with
  | none => "NO_KEY"
  | some s => if s = "" then "NO_KEY" else applySubs s

/-- The class `[\d.]` of the timestamp group. -/
def tsClass (c : Char) : Bool := isDigitC c || c = '.'

/-- The class `[\d.:a-fA-F]` of the client-address group. -/
def ipClass (c : Char) : Bool :=
  isDigitC c || c = '.' || c = ':' || ('a' ≤ c && c ≤ 'f') || ('A' ≤ c && c ≤ 'F')

/-- Maximal-munch embedding of a regex piece `(C)+` whose class `C` is
disjoint from whatever follows it: consume the longest nonempty prefix of
`q`-characters, fail if it is empty. -/
def munch1 (q : Char → Bool) (l : List Char) : Option (List Char × List Char) :=
  if (l.takeWhile q).isEmpty then none else some (l.takeWhile q, l.dropWhile q)

/-- A single literal character of the regex. -/
def expectC (c : Char) : List Char → Option (List Char)
  | x :: xs => if x = c then some xs else none
  | [] => none

/-- Resolution of the backtracking in `([\d.:a-fA-F]+):(\d+)\]`: inside the
maximal class run, the greedy first group ends at the last colon whose
suffix is a nonempty all-digit run (Python tries the longest first group
first and shrinks until `:(\d+)` fits, and `(\d+)` must then reach the end
of the class run because a digit after it would itself belong to the run).
Returns `(client_ip, client_port)`. -/
def splitIpPort (R : List Char) : Option (List Char × List Char) :=
  if (R.reverse.takeWhile isDigitC).isEmpty then none
  else
    match R.reverse.dropWhile isDigitC with
    | ':' :: rest =>
      if rest.isEmpty then none
      else some (rest.reverse, (R.reverse.takeWhile isDigitC).reverse)
    | _ => none

/-- Numeric value of a digit string. -/
def natOfDigits (l : List Char) : Nat :=
  l.foldl (fun a c => a * 10 + (c.toNat - 48)) 0

/-- Embedding of Python `float(s)` for strings drawn from the class
`[\d.]+`: such a string converts exactly when it has at most one dot and at
least one digit; the value is modelled as the exact decimal rational.  Any
other shape (a second dot, or no digit) raises `ValueError`, modelled as
`none`. -/
def pyFloat? (l : List Char) : Option ℚ :=
  match l.dropWhile isDigitC with
  | [] => if (l.takeWhile isDigitC).isEmpty then none
      else some (mkRat (natOfDigits (l.takeWhile isDigitC)) 1)
  | '.' :: frac =>
    if frac.all isDigitC && !((l.takeWhile isDigitC).isEmpty && frac.isEmpty)
    then some (mkRat (natOfDigits (l.takeWhile isDigitC ++ frac)) (10 ^ frac.length))
    else none
  | _ => none

/-- The dictionary built by `parse_monitor_line` on a successful match
(the captured `client_port` is discarded by the Python code, and `db` is
kept as a string). -/
structure MonitorEvent where
  timestamp : ℚ
  db : String
  client_ip : String
  command : String
  key : Option String
  raw : String
deriving DecidableEq, Repr

/-- The optional tail group `(?:\s+"([^"]+)")?`: whitespace, a quote, a
nonempty quote-free run, a closing quote.  `none` when the group does not
participate (the regex then still matches). -/
def optArg (l : List Char) : Option (List Char) :=
  match munch1 isWsC l with
  | none => none
  | some (_, r1) =>
  match expectC '"' r1 with
  | none => none
  | some r2 =>
  match munch1 (fun c => c != '"') r2 with
  | none => none
  | some (a, r3) =>
  match expectC '"' r3 with
  | none => none
  | some _ => some a

/-- The anchored match of the monitor-line regex
`([\d.]+)\s+\[(\d+)\s+([\d.:a-fA-F]+):(\d+)\]\s+"([^"]+)"(?:\s+"([^"]+)")?`
against the whole line, returning the captured pieces
`(timestamp text, db, client_ip, command, first argument?)`.  Adjacent
pieces draw from disjoint classes, so each `+` is maximal-munch (see the
file header). -/
def matchPartsL (l : List Char) :
    Option (List Char × List Char × List Char × List Char × Option (List Char)) :=
  match munch1 tsClass l with
  | none => none
  | some (ts, r1) =>
  match munch1 isWsC r1 with
  | none => none
  | some (_, r2) =>
  match expectC '[' r2 with
  | none => none
  | some r3 =>
  match munch1 isDigitC r3 with
  | none => none
  | some (db, r4) =>
  match munch1 isWsC r4 with
  | none => none
  | some (_, r5) =>
  match munch1 ipClass r5 with
  | none => none
  | some (ipp, r6) =>
  match splitIpPort ipp with
  | none => none
  | some (ip, _) =>
  match expectC ']' r6 with
  | none => none
  | some r7 =>
  match munch1 isWsC r7 with
  | none => none
  | some (_, r8) =>
  match expectC '"' r8 with
  | none => none
  | some r9 =>
  match munch1 (fun c => c != '"') r9 with
  | none => none
  | some (cmd, r10) =>
  match expectC '"' r10 with
  | none => none
  | some r11 => some (ts, db, ip, cmd, optArg r11)

/-- The anchored regex match applied to a line. -/
def matchParts (line : String) :
    Option (List Char × List Char × List Char × List Char × Option (List Char)) :=
  matchPartsL line.toList

/-- The body of `parse_monitor_line` before its `try/except`: a failed
regex match is the ordinary value `None` (`ok none`), while a
`float(timestamp)` that raises `ValueError` is an exception
(`error ()`). -/
def parseExc (line : String) : Except Unit (Option MonitorEvent) :=
  match matchParts line with
  | none => .ok none
  | some (ts, db, ip, cmd, arg) =>
    match pyFloat? ts with
    | none => .error ()
    | some q => .ok (some
        { timestamp := q
          db := String.mk db
          client_ip := String.mk ip
          command := String.mk (cmd.map Char.toUpper)
          key := arg.map String.mk
          raw := line })

/-- Embedding of `parse_monitor_line` (utils.py lines 6-30): the
`try/except Exception: return None` collapses the exception path to
`None`. -/
def parse_monitor_line (line : String) : Option MonitorEvent :=
  match parseExc line with
  | .error _ => none
  | .ok r => r

/-- Job execution status (models.py `JobStatus`). -/
inductive JobStatus where
  | pending | running | completed | failed | cancelled
deriving DecidableEq, Repr

/-- The `.value` string of a `JobStatus` member. -/
def JobStatus.value : JobStatus → String
  | .pending => "pending"
  | .running => "running"
  | .completed => "completed"
  | .failed => "failed"
  | .cancelled => "cancelled"

/-- Per-shard monitoring status (models.py `ShardStatus`). -/
inductive ShardStatus where
  | pending | connecting | monitoring | finalizing | completed | failed
deriving DecidableEq, Repr

/-- The `.value` string of a `ShardStatus` member. -/
def ShardStatus.value : ShardStatus → String
  | .pending => "pending"
  | .connecting => "connecting"
  | .monitoring => "monitoring"
  | .finalizing => "finalizing"
  | .completed => "completed"
  | .failed => "failed"

/-- A JSON-serializable Python value, for modelling the dictionaries the
status endpoint returns. -/
inductive PyValue where
  | pyStr : String → PyValue
  | pyInt : Int → PyValue
  | pyRat : ℚ → PyValue
  | pyNone : PyValue
deriving DecidableEq, Repr

/-- The `monitor_shards` row (models.py lines 56-76, `MonitorShard`): note
that its columns carry a single `command_count` counter and no drop
counter.  `DateTime` columns are modelled as opaque optional strings. -/
structure MonitorShard where
  id : String
  job_id : String
  shard_name : String
  host : String
  port : Int
  role : String
  status : ShardStatus
  started_at : Option String
  completed_at : Option String
  error_message : Option String
  command_count : Int
  qps : ℚ
deriving DecidableEq, Repr

/-- The `monitor_jobs` row (models.py `MonitorJob`) together with its
`shards` relationship. -/
structure MonitorJob where
  id : String
  name : Option String
  replication_group_id : String
  region : String
  endpoint_type : String
  duration_seconds : Int
  created_at : String
  started_at : Option String
  completed_at : Option String
  status : JobStatus
  error_message : Option String
  total_commands : Int
  config_json : Option String
  shards : List MonitorShard
deriving DecidableEq, Repr

/-- The per-shard dictionary appended to `shards_status` by
`get_job_status` (web/main.py lines 582-592): exactly the keys
`shard_name, host, port, status, command_count, qps, error`. -/
def shardStatusDict (s : MonitorShard) : List (String × PyValue) :=
  [("shard_name", .pyStr s.shard_name),
   ("host", .pyStr s.host),
   ("port", .pyInt s.port),
   ("status", .pyStr s.status.value),
   ("command_count", .pyInt s.command_count),
   ("qps", .pyRat s.qps),
   ("error", match s.error_message with
             | some e => .pyStr e
             | none => .pyNone)]

/-- The response of `GET /api/jobs/{job_id}/status` for an existing job. -/
structure JobStatusResponse where
  job_id : String
  status : String
  total_commands : Int
  error_message : Option String
  started_at : Option String
  shards : List (List (String × PyValue))
deriving DecidableEq, Repr

/-- Embedding of `get_job_status` (web/main.py lines 574-610) for a job
that exists.  `persisted` is the authoritative row count of the per-job
commands database: `none` models both "no per-job database exists"
(`job_db_exists` false) and "the count could not be read" (the swallowed
exception), in which case `actual_total` stays `0`; the reported total is
`max(job.total_commands, actual_total)`. -/
def get_job_status (job : MonitorJob) (persisted : Option Int) : JobStatusResponse :=
  { job_id := job.id
    status := job.status.value
    total_commands := max job.total_commands (persisted.getD 0)
    error_message := job.error_message
    started_at := job.started_at
    shards := job.shards.map shardStatusDict }

/-- A concrete shard row, used to evaluate the status publication at an
explicit input. -/
def exampleShard : MonitorShard :=
  { id := "job1:shard-0001"
    job_id := "job1"
    shard_name := "shard-0001"
    host := "10.0.0.5"
    port := 6379
    role := "replica"
    status := .monitoring
    started_at := some "2026-01-01T00:00:00"
    completed_at := none
    error_message := none
    command_count := 42
    qps := 7/2 }

/-- A concrete job row with one shard. -/
def exampleJob : MonitorJob :=
  { id := "job1"
    name := none
    replication_group_id := "rg-1"
    region := "ap-south-1"
    endpoint_type := "replica"
    duration_seconds := 60
    created_at := "2026-01-01T00:00:00"
    started_at := some "2026-01-01T00:00:01"
    completed_at := none
    status := .running
    error_message := none
    total_commands := 2
    config_json := none
    shards := [exampleShard] }

/-- C9: `extract_key_pattern` maps the canonical UUID
`a1b2c3d4-e5f6-47a8-b9c0-d1e2f3a4b5c6` to exactly `"{UUID}"`; the
placeholder survives every later substitution pass unchanged. -/
theorem extract_uuid_example :
    extract_key_pattern (some "a1b2c3d4-e5f6-47a8-b9c0-d1e2f3a4b5c6") = "{UUID}" := by
  decide

/-- C1 counterexample: on `"user:1234567890123:session"` the code does not
return `"user:{USERID}:session"` as the specification's example states. -/
theorem extract_userid_example_fails :
    extract_key_pattern (some "user:1234567890123:session") ≠ "user:{USERID}:session" := by
  decide

/-- C1 amended: the 13-digit run between the colons is consumed by the
earlier `\d{10,13}` → `{TIMESTAMP}` rule, so the result is
`"user:{TIMESTAMP}:session"`; the later `:\d{10,}:` USERID rule never sees
a 10+-digit run. -/
theorem extract_userid_example_actual :
    extract_key_pattern (some "user:1234567890123:session") = "user:{TIMESTAMP}:session" := by
  decide

/-- C7: parsing the documented example line yields the documented event
(timestamp `1700000000.123456`, client ip `10.0.0.5`, uppercase command
`GET`, key `user:42`). -/
theorem parse_example_line :
    parse_monitor_line "1700000000.123456 [0 10.0.0.5:54321] \"GET\" \"user:42\"" =
      some { timestamp := mkRat 1700000000123456 1000000
             db := "0"
             client_ip := "10.0.0.5"
             command := "GET"
             key := some "user:42"
             raw := "1700000000.123456 [0 10.0.0.5:54321] \"GET\" \"user:42\"" } := by
  decide

/-- C8: the sentinel `"NO_KEY"` is returned exactly on the falsy inputs
(`None` and the empty string); every other key takes the substitution
path, whose result is `applySubs` of the key. -/
theorem extract_sentinel :
    extract_key_pattern none = "NO_KEY" ∧
    extract_key_pattern (some "") = "NO_KEY" ∧
    ∀ s : String, s ≠ "" → extract_key_pattern (some s) = applySubs s := by
  refine ⟨rfl, rfl, fun s hs => ?_⟩
  simp [extract_key_pattern, hs]

/-- Witness for C8 at the concrete key `"abc"`. -/
theorem extract_sentinel_witness :
    extract_key_pattern (some "abc") = applySubs "abc" :=
  extract_sentinel.2.2 "abc" (by decide)

/-- C5 counterexample: the per-shard status dictionary published by
`get_job_status` carries exactly the keys `shard_name, host, port, status,
command_count, qps, error` — there is no `drop_count` field. -/
theorem shard_status_no_drop_count :
    (shardStatusDict exampleShard).map Prod.fst =
      ["shard_name", "host", "port", "status", "command_count", "qps", "error"] ∧
    "drop_count" ∉ (shardStatusDict exampleShard).map Prod.fst := by
  decide

/-- C5 amended: for every shard row, the published snapshot exposes the
state, the command counter, the qps and the error, but no drop counter:
its key set is exactly `shard_name, host, port, status, command_count,
qps, error`. -/
theorem shard_status_fields (s : MonitorShard) :
    (shardStatusDict s).map Prod.fst =
      ["shard_name", "host", "port", "status", "command_count", "qps", "error"] ∧
    "drop_count" ∉ (shardStatusDict s).map Prod.fst := by
  have h : (shardStatusDict s).map Prod.fst =
      ["shard_name", "host", "port", "status", "command_count", "qps", "error"] := rfl
  refine ⟨h, ?_⟩
  rw [h]
  decide

/-- C6: the status endpoint reports
`max(job.total_commands, persisted count or 0)`, which is never below the
coordinator-tracked total nor below an available persisted count. -/
theorem job_status_total_reconciles (job : MonitorJob) (persisted : Option Int) :
    (get_job_status job persisted).total_commands =
      max job.total_commands (persisted.getD 0) ∧
    job.total_commands ≤ (get_job_status job persisted).total_commands ∧
    ∀ c : Int, persisted = some c →
      c ≤ (get_job_status job persisted).total_commands := by
  refine ⟨rfl, le_max_left _ _, fun c hc => ?_⟩
  subst hc
  exact le_max_right _ _

/-- Witness for C6 at a concrete job whose persisted count (3) exceeds the
tracked total (2). -/
theorem job_status_total_reconciles_witness :
    (3 : Int) ≤ (get_job_status exampleJob (some 3)).total_commands :=
  (job_status_total_reconciles exampleJob (some 3)).2.2 3 rfl

/-- `takeWhile` runs through a prefix all of whose characters satisfy `q`. -/
theorem takeWhile_append_all (q : Char → Bool) (a b : List Char)
    (h : ∀ c ∈ a, q c = true) :
    (a ++ b).takeWhile q = a ++ b.takeWhile q := by
  induction a with
  | nil => rfl
  | cons x xs ih =>
    have hx : q x = true := h x (by simp)
    simp only [List.cons_append, List.takeWhile_cons, hx, if_true]
    rw [ih (fun c hc => h c (by simp [hc]))]

/-- `dropWhile` skips a prefix all of whose characters satisfy `q`. -/
theorem dropWhile_append_all (q : Char → Bool) (a b : List Char)
    (h : ∀ c ∈ a, q c = true) :
    (a ++ b).dropWhile q = b.dropWhile q := by
  induction a with
  | nil => rfl
  | cons x xs ih =>
    have hx : q x = true := h x (by simp)
    simp only [List.cons_append, List.dropWhile_cons, hx, if_true]
    exact ih (fun c hc => h c (by simp [hc]))

/-- `takeWhile` stops at a failing head. -/
theorem takeWhile_head_false (q : Char → Bool) (b : List Char)
    (h : ∀ c, b.head? = some c → q c = false) :
    b.takeWhile q = [] := by
  cases b with
  | nil => rfl
  | cons x xs => simp [List.takeWhile_cons, h x rfl]

/-- `dropWhile` keeps a list whose head fails. -/
theorem dropWhile_head_false (q : Char → Bool) (b : List Char)
    (h : ∀ c, b.head? = some c → q c = false) :
    b.dropWhile q = b := by
  cases b with
  | nil => rfl
  | cons x xs => simp [List.dropWhile_cons, h x rfl]

/-- Behaviour of `munch1` at a boundary between a nonempty all-`q` prefix
and a rest whose head fails `q`. -/
theorem munch1_spec (q : Char → Bool) (a b : List Char) (ha : a ≠ [])
    (hall : ∀ c ∈ a, q c = true)
    (hb : ∀ c, b.head? = some c → q c = false) :
    munch1 q (a ++ b) = some (a, b) := by
  unfold munch1
  rw [takeWhile_append_all q a b hall, takeWhile_head_false q b hb,
    dropWhile_append_all q a b hall, dropWhile_head_false q b hb]
  simp [ha]

/-- A successful `munch1` inverts to `takeWhile`/`dropWhile`. -/
theorem munch1_some (q : Char → Bool) (l t r : List Char)
    (h : munch1 q l = some (t, r)) :
    t = l.takeWhile q ∧ r = l.dropWhile q := by
  unfold munch1 at h
  split at h
  · cases h
  · simp only [Option.some.injEq, Prod.mk.injEq] at h
    exact ⟨h.1.symm, h.2.symm⟩

/-- `expectC` succeeds exactly on the expected head character. -/
theorem expectC_cons (c : Char) (r : List Char) : expectC c (c :: r) = some r := by
  simp [expectC]

/-- A successful `expectC` exposes the head character. -/
theorem expectC_some (ch : Char) (r r' : List Char)
    (h : expectC ch r = some r') : r = ch :: r' := by
  cases r with
  | nil => simp [expectC] at h
  | cons x xs =>
    by_cases hx : x = ch
    · subst hx
      simp [expectC] at h
      simp [h]
    · simp [expectC, hx] at h

/-- `splitIpPort` recovers the ip and port of a well-formed
`<ip>:<port>` class run: the separating colon is the last colon because
the port is all digits. -/
theorem splitIpPort_spec (ip port : List Char) (hip : ip ≠ [])
    (hport : port ≠ []) (hpd : ∀ c ∈ port, isDigitC c = true) :
    splitIpPort (ip ++ ':' :: port) = some (ip, port) := by
  have hrev : (ip ++ ':' :: port).reverse = port.reverse ++ ':' :: ip.reverse := by
    simp
  unfold splitIpPort
  rw [hrev]
  have hpd' : ∀ c ∈ port.reverse, isDigitC c = true := by
    intro c hc
    exact hpd c (List.mem_reverse.mp hc)
  have hcol : ∀ c, (':' :: ip.reverse).head? = some c → isDigitC c = false := by
    intro c hc
    simp at hc
    subst hc
    rfl
  rw [takeWhile_append_all isDigitC _ _ hpd', takeWhile_head_false _ _ hcol,
    dropWhile_append_all isDigitC _ _ hpd', dropWhile_head_false _ _ hcol]
  simp [hip, hport]

/-- The quoted-argument tail `["<arg1>" "<arg2>" ...]` of a well-formed
monitor line, one space before each quoted argument. -/
def quotedArgs : List (List Char) → List Char
  | [] => []
  | a :: as => ' ' :: '"' :: (a ++ '"' :: quotedArgs as)

/-- A well-formed monitor line
`<timestamp> [<db> <client_ip>:<client_port>] "<command>" ["<arg1>" ...]`,
assembled from its tokens. -/
def monitorLine (ts db ip port cmd : List Char) (args : List (List Char)) : List Char :=
  ts ++ ' ' :: '[' :: (db ++ ' ' :: (ip ++ ':' :: port ++ ']' :: ' ' :: '"' :: (cmd ++ '"' :: quotedArgs args)))

/-- The optional argument group recovers the first quoted argument of the
tail (or nothing when there are no arguments). -/
theorem optArg_quotedArgs (args : List (List Char))
    (h : ∀ a ∈ args, a ≠ [] ∧ '"' ∉ a) :
    optArg (quotedArgs args) = args.head? := by
  cases args with
  | nil => rfl
  | cons a as =>
    obtain ⟨ha, hq⟩ := h a (by simp)
    have h1 : munch1 isWsC (' ' :: '"' :: (a ++ '"' :: quotedArgs as)) =
        some ([' '], '"' :: (a ++ '"' :: quotedArgs as)) :=
      munch1_spec isWsC [' '] _ (by simp)
        (by intro c hc; simp at hc; subst hc; rfl)
        (by intro c hc; simp at hc; subst hc; rfl)
    have h3 : munch1 (fun c => c != '"') (a ++ '"' :: quotedArgs as) =
        some (a, '"' :: quotedArgs as) :=
      munch1_spec _ a _ ha
        (by intro c hc
            simp only [bne_iff_ne, ne_eq]
            intro h'
            subst h'
            exact hq hc)
        (by intro c hc; simp at hc; subst hc; simp)
    simp only [quotedArgs, optArg, h1, expectC_cons, h3]
    rfl

/-- C2: every line assembled from well-formed tokens parses to a non-null
event whose command is the uppercased command token and whose key is
exactly the first quoted argument (null when there is none). -/
theorem parse_monitor_line_wellformed
    (ts db ip port cmd : List Char) (args : List (List Char)) (q : ℚ)
    (hts : pyFloat? ts = some q)
    (htsc : ∀ c ∈ ts, tsClass c = true)
    (hdb : db ≠ []) (hdbd : ∀ c ∈ db, isDigitC c = true)
    (hip : ip ≠ []) (hipc : ∀ c ∈ ip, ipClass c = true)
    (hport : port ≠ []) (hportd : ∀ c ∈ port, isDigitC c = true)
    (hcmd : cmd ≠ []) (hcmdq : '"' ∉ cmd)
    (hargs : ∀ a ∈ args, a ≠ [] ∧ '"' ∉ a) :
    parse_monitor_line (String.mk (monitorLine ts db ip port cmd args)) =
      some { timestamp := q
             db := String.mk db
             client_ip := String.mk ip
             command := String.mk (cmd.map Char.toUpper)
             key := (args.head?).map String.mk
             raw := String.mk (monitorLine ts db ip port cmd args) } := by
  have hts_ne : ts ≠ [] := by
    intro h
    subst h
    simp [pyFloat?] at hts
  have hdig_ip : ∀ c : Char, isDigitC c = true → ipClass c = true := by
    intro c hc
    simp [ipClass, hc]
  have h1 : munch1 tsClass
      (ts ++ ' ' :: '[' :: (db ++ ' ' :: (ip ++ ':' :: port ++ ']' :: ' ' :: '"' :: (cmd ++ '"' :: quotedArgs args)))) =
      some (ts, ' ' :: '[' :: (db ++ ' ' :: (ip ++ ':' :: port ++ ']' :: ' ' :: '"' :: (cmd ++ '"' :: quotedArgs args)))) :=
    munch1_spec tsClass ts _ hts_ne htsc
      (by intro c hc; simp at hc; subst hc; rfl)
  have h2 : munch1 isWsC
      (' ' :: '[' :: (db ++ ' ' :: (ip ++ ':' :: port ++ ']' :: ' ' :: '"' :: (cmd ++ '"' :: quotedArgs args)))) =
      some ([' '], '[' :: (db ++ ' ' :: (ip ++ ':' :: port ++ ']' :: ' ' :: '"' :: (cmd ++ '"' :: quotedArgs args)))) :=
    munch1_spec isWsC [' '] _ (by simp)
      (by intro c hc; simp at hc; subst hc; rfl)
      (by intro c hc; simp at hc; subst hc; rfl)
  have h4 : munch1 isDigitC
      (db ++ ' ' :: (ip ++ ':' :: port ++ ']' :: ' ' :: '"' :: (cmd ++ '"' :: quotedArgs args))) =
      some (db, ' ' :: (ip ++ ':' :: port ++ ']' :: ' ' :: '"' :: (cmd ++ '"' :: quotedArgs args))) :=
    munch1_spec isDigitC db _ hdb hdbd
      (by intro c hc; simp at hc; subst hc; rfl)
  have hiphead : ∀ c : Char,
      (ip ++ ':' :: port ++ ']' :: ' ' :: '"' :: (cmd ++ '"' :: quotedArgs args)).head? = some c →
      isWsC c = false := by
    intro c hc
    cases hip' : ip with
    | nil => exact absurd hip' hip
    | cons c0 ip0 =>
      subst hip'
      simp only [List.cons_append, List.head?_cons, Option.some.injEq] at hc
      subst hc
      have hc0 : ipClass c0 = true := hipc c0 (by simp)
      cases hw : isWsC c0 with
      | false => rfl
      | true =>
        exfalso
        simp only [isWsC, Bool.or_eq_true, decide_eq_true_eq] at hw
        rcases hw with ((((h' | h') | h') | h') | h') | h' <;> subst h' <;> simp [ipClass, isDigitC] at hc0
  have h5 : munch1 isWsC
      (' ' :: (ip ++ ':' :: port ++ ']' :: ' ' :: '"' :: (cmd ++ '"' :: quotedArgs args))) =
      some ([' '], ip ++ ':' :: port ++ ']' :: ' ' :: '"' :: (cmd ++ '"' :: quotedArgs args)) :=
    munch1_spec isWsC [' '] _ (by simp)
      (by intro c hc; simp at hc; subst hc; rfl)
      hiphead
  have h6 : munch1 ipClass
      (ip ++ ':' :: port ++ ']' :: ' ' :: '"' :: (cmd ++ '"' :: quotedArgs args)) =
      some (ip ++ ':' :: port, ']' :: ' ' :: '"' :: (cmd ++ '"' :: quotedArgs args)) := by
    have e : ip ++ ':' :: port ++ ']' :: ' ' :: '"' :: (cmd ++ '"' :: quotedArgs args) =
        (ip ++ ':' :: port) ++ ']' :: ' ' :: '"' :: (cmd ++ '"' :: quotedArgs args) := by
      simp
    rw [e]
    refine munch1_spec ipClass (ip ++ ':' :: port) _ (by simp [hip]) ?_
      (by intro c hc; simp at hc; subst hc; rfl)
    intro c hc
    rcases List.mem_append.mp hc with h' | h'
    · exact hipc c h'
    · rcases List.mem_cons.mp h' with h'' | h''
      · subst h''; rfl
      · exact hdig_ip c (hportd c h'')
  have h7 : splitIpPort (ip ++ ':' :: port) = some (ip, port) :=
    splitIpPort_spec ip port hip hport hportd
  have h9 : munch1 isWsC (' ' :: '"' :: (cmd ++ '"' :: quotedArgs args)) =
      some ([' '], '"' :: (cmd ++ '"' :: quotedArgs args)) :=
    munch1_spec isWsC [' '] _ (by simp)
      (by intro c hc; simp at hc; subst hc; rfl)
      (by intro c hc; simp at hc; subst hc; rfl)
  have h11 : munch1 (fun c => c != '"') (cmd ++ '"' :: quotedArgs args) =
      some (cmd, '"' :: quotedArgs args) :=
    munch1_spec _ cmd _ hcmd
      (by intro c hc
          simp only [bne_iff_ne, ne_eq]
          intro h'
          subst h'
          exact hcmdq hc)
      (by intro c hc; simp at hc; subst hc; simp)
  have htl : (String.mk (monitorLine ts db ip port cmd args)).toList =
      monitorLine ts db ip port cmd args := rfl
  unfold parse_monitor_line parseExc matchParts
  rw [htl]
  unfold matchPartsL monitorLine
  rw [h1]
  simp only [h2, expectC_cons, h4, h5, h6, h7, h9, h11,
    optArg_quotedArgs args hargs, hts]

/-- Witness for C2 at the concrete line
`1.5 [0 10.0.0.5:6379] "get" "user:42"`. -/
theorem parse_monitor_line_wellformed_witness :
    parse_monitor_line (String.mk (monitorLine "1.5".toList "0".toList "10.0.0.5".toList
        "6379".toList "get".toList ["user:42".toList])) =
      some { timestamp := mkRat 15 10
             db := String.mk "0".toList
             client_ip := String.mk "10.0.0.5".toList
             command := String.mk ("get".toList.map Char.toUpper)
             key := (["user:42".toList].head?).map String.mk
             raw := String.mk (monitorLine "1.5".toList "0".toList "10.0.0.5".toList
               "6379".toList "get".toList ["user:42".toList]) } :=
  parse_monitor_line_wellformed "1.5".toList "0".toList "10.0.0.5".toList "6379".toList
    "get".toList ["user:42".toList] (mkRat 15 10)
    (by decide) (by decide) (by decide) (by decide) (by decide) (by decide)
    (by decide) (by decide) (by decide) (by decide) (by decide)

/-- The `dropWhile` of a list is one of its suffixes, hence a subset. -/
theorem dropWhile_subset (q : Char → Bool) (l : List Char) : l.dropWhile q ⊆ l := by
  induction l with
  | nil => simp
  | cons c cs ih =>
    by_cases hc : q c
    · simp only [List.dropWhile_cons, hc, if_true]
      exact fun x hx => List.mem_cons_of_mem c (ih hx)
    · simp only [List.dropWhile_cons, hc, if_false]
      exact fun x hx => hx

/-- A successful regex match implies the line contains the mandatory
literal bracket and quote characters. -/
theorem matchParts_some_mem (l : List Char)
    (x : List Char × List Char × List Char × List Char × Option (List Char))
    (h : matchPartsL l = some x) : '[' ∈ l ∧ '"' ∈ l := by
  unfold matchPartsL at h
  cases e1 : munch1 tsClass l with
  | none => simp [e1] at h
  | some v1 =>
  obtain ⟨ts, r1⟩ := v1
  simp only [e1] at h
  cases e2 : munch1 isWsC r1 with
  | none => simp [e2] at h
  | some v2 =>
  obtain ⟨w1, r2⟩ := v2
  simp only [e2] at h
  cases e3 : expectC '[' r2 with
  | none => simp [e3] at h
  | some r3 =>
  simp only [e3] at h
  cases e4 : munch1 isDigitC r3 with
  | none => simp [e4] at h
  | some v4 =>
  obtain ⟨db, r4⟩ := v4
  simp only [e4] at h
  cases e5 : munch1 isWsC r4 with
  | none => simp [e5] at h
  | some v5 =>
  obtain ⟨w2, r5⟩ := v5
  simp only [e5] at h
  cases e6 : munch1 ipClass r5 with
  | none => simp [e6] at h
  | some v6 =>
  obtain ⟨ipp, r6⟩ := v6
  simp only [e6] at h
  cases e7 : splitIpPort ipp with
  | none => simp [e7] at h
  | some v7 =>
  obtain ⟨ip, pt⟩ := v7
  simp only [e7] at h
  cases e8 : expectC ']' r6 with
  | none => simp [e8] at h
  | some r7 =>
  simp only [e8] at h
  cases e9 : munch1 isWsC r7 with
  | none => simp [e9] at h
  | some v9 =>
  obtain ⟨w3, r8⟩ := v9
  simp only [e9] at h
  cases e10 : expectC '"' r8 with
  | none => simp [e10] at h
  | some r9 =>
  have hr1 : r1 ⊆ l := by
    rw [(munch1_some _ _ _ _ e1).2]
    exact dropWhile_subset _ _
  have hr2 : r2 ⊆ l := by
    rw [(munch1_some _ _ _ _ e2).2]
    exact fun c hc => hr1 (dropWhile_subset _ _ hc)
  have hbr : '[' ∈ l := by
    apply hr2
    rw [expectC_some _ _ _ e3]
    simp
  have hr3 : r3 ⊆ l := by
    intro c hc
    apply hr2
    rw [expectC_some _ _ _ e3]
    exact List.mem_cons_of_mem _ hc
  have hr4 : r4 ⊆ l := by
    rw [(munch1_some _ _ _ _ e4).2]
    exact fun c hc => hr3 (dropWhile_subset _ _ hc)
  have hr5 : r5 ⊆ l := by
    rw [(munch1_some _ _ _ _ e5).2]
    exact fun c hc => hr4 (dropWhile_subset _ _ hc)
  have hr6 : r6 ⊆ l := by
    rw [(munch1_some _ _ _ _ e6).2]
    exact fun c hc => hr5 (dropWhile_subset _ _ hc)
  have hr7 : r7 ⊆ l := by
    intro c hc
    apply hr6
    rw [expectC_some _ _ _ e8]
    exact List.mem_cons_of_mem _ hc
  have hr8 : r8 ⊆ l := by
    rw [(munch1_some _ _ _ _ e9).2]
    exact fun c hc => hr7 (dropWhile_subset _ _ hc)
  have hqu : '"' ∈ l := by
    apply hr8
    rw [expectC_some _ _ _ e10]
    simp
  exact ⟨hbr, hqu⟩

/-- C3: `parse_monitor_line` is total and never lets an exception escape:
a `float` failure inside the body (the `error` outcome of `parseExc`)
yields `None`; a line with no `[`, a line with no `"`, or a line whose
first character is not a timestamp character cannot match the regex and
yields `None`; and the concrete line whose timestamp `1.2.3` makes
`float` raise also yields `None`. -/
theorem parse_malformed_null :
    (∀ s : String, parseExc s = .error () → parse_monitor_line s = none) ∧
    (∀ s : String, '[' ∉ s.toList → parse_monitor_line s = none) ∧
    (∀ s : String, '"' ∉ s.toList → parse_monitor_line s = none) ∧
    (∀ (s : String) (c : Char), s.toList.head? = some c → tsClass c = false →
      parse_monitor_line s = none) ∧
    parse_monitor_line "1.2.3 [0 10.0.0.5:54321] \"GET\"" = none := by
  refine ⟨?_, ?_, ?_, ?_, by decide⟩
  · intro s h
    unfold parse_monitor_line
    rw [h]
  · intro s hbr
    cases hm : matchParts s with
    | none =>
      unfold parse_monitor_line parseExc
      rw [hm]
    | some x => exact absurd (matchParts_some_mem s.toList x hm).1 hbr
  · intro s hqu
    cases hm : matchParts s with
    | none =>
      unfold parse_monitor_line parseExc
      rw [hm]
    | some x => exact absurd (matchParts_some_mem s.toList x hm).2 hqu
  · intro s c hc htc
    have hm : munch1 tsClass s.toList = none := by
      unfold munch1
      rw [takeWhile_head_false _ _ ?_]
      · rfl
      · intro c' hc'
        rw [hc] at hc'
        cases hc'
        exact htc
    have hmp : matchParts s = none := by
      unfold matchParts matchPartsL
      rw [hm]
    unfold parse_monitor_line parseExc
    rw [hmp]

/-- Witness for C3 at concrete malformed lines of each kind. -/
theorem parse_malformed_null_witness :
    parse_monitor_line "PING" = none ∧
    parse_monitor_line "no bracket 1.2 \"GET\"" = none ∧
    parse_monitor_line "1.2 [0 a:1] no quotes" = none ∧
    parse_monitor_line "x1700 [0 a:1] \"GET\"" = none ∧
    parse_monitor_line "1.2.3 [0 10.0.0.5:54321] \"GET\"" = none :=
  ⟨parse_malformed_null.2.1 "PING" (by decide),
   parse_malformed_null.2.1 "no bracket 1.2 \"GET\"" (by decide),
   parse_malformed_null.2.2.1 "1.2 [0 a:1] no quotes" (by decide),
   parse_malformed_null.2.2.2.1 "x1700 [0 a:1] \"GET\"" 'x' rfl rfl,
   parse_malformed_null.1 "1.2.3 [0 10.0.0.5:54321] \"GET\"" rfl⟩

/-- `hasRun10 l` holds iff some position of `l` starts a run of at least
ten consecutive decimal digits. -/
def hasRun10 : List Char → Bool
  | [] => false
  | c :: cs => decide (10 ≤ drun (c :: cs)) || hasRun10 cs

/-- The leading digit run of a cons. -/
theorem drun_cons (c : Char) (cs : List Char) :
    drun (c :: cs) = if isDigitC c then drun cs + 1 else 0 := rfl

/-- A false `hasRun10` on a cons gives both the head-run bound and the
tail property. -/
theorem hasRun10_cons_false (c : Char) (cs : List Char)
    (h : hasRun10 (c :: cs) = false) :
    drun (c :: cs) ≤ 9 ∧ hasRun10 cs = false := by
  unfold hasRun10 at h
  rcases Bool.or_eq_false_iff.mp h with ⟨h1, h2⟩
  refine ⟨?_, h2⟩
  have := of_decide_eq_false h1
  omega

/-- `hasRun10` stays false on suffixes. -/
theorem hasRun10_drop (k : Nat) (l : List Char) (h : hasRun10 l = false) :
    hasRun10 (l.drop k) = false := by
  induction l generalizing k with
  | nil => simp [h]
  | cons c cs ih =>
    cases k with
    | zero => exact h
    | succ k => exact ih k (hasRun10_cons_false c cs h).2

/-- A digit-free prefix does not contribute to `hasRun10`. -/
theorem hasRun10_append_nodigit (a b : List Char)
    (ha : ∀ c ∈ a, isDigitC c = false) :
    hasRun10 (a ++ b) = hasRun10 b := by
  induction a with
  | nil => rfl
  | cons x a' ih =>
    have hx : isDigitC x = false := ha x (by simp)
    show (decide (10 ≤ drun (x :: (a' ++ b))) || hasRun10 (a' ++ b)) = hasRun10 b
    rw [drun_cons, hx]
    simp only [if_false, ih (fun c hc => ha c (by simp [hc]))]
    simp

/-- The leading `q`-run of a cons. -/
theorem crun_cons (q : Char → Bool) (x : Char) (xs : List Char) :
    crun q (x :: xs) = if q x then crun q xs + 1 else 0 := rfl

/-- The scanner never lengthens the leading `q`-run when the replacement
text opens with a non-`q` character. -/
theorem crun_reSub_le (q : Char → Bool) (M : Option Char → List Char → Option Nat)
    (R : List Char) (hRne : R ≠ []) (hR : ∀ c, R.head? = some c → q c = false) :
    ∀ (n : Nat) (l : List Char), l.length ≤ n → ∀ p,
      crun q (reSub M R p l) ≤ crun q l := by
  intro n
  induction n with
  | zero =>
    intro l hl p
    have h0 : l = [] := List.length_eq_zero.mp (Nat.le_zero.mp hl)
    subst h0
    simp [reSub_nil]
  | succ n ih =>
    intro l hl p
    cases l with
    | nil => simp [reSub_nil]
    | cons c cs =>
      cases hM : M p (c :: cs) with
      | none =>
        simp only [reSub_cons, hM]
        rw [crun_cons, crun_cons]
        by_cases hq : q c
        · rw [if_pos hq, if_pos hq]
          have := ih cs (Nat.le_of_succ_le_succ hl) (some c)
          omega
        · rw [if_neg hq, if_neg hq]
      | some k =>
        simp only [reSub_cons, hM]
        obtain ⟨r0, R', hRc⟩ : ∃ r0 R', R = r0 :: R' := by
          cases R with
          | nil => exact absurd rfl hRne
          | cons a b => exact ⟨a, b, rfl⟩
        have hr0 : q r0 = false := hR r0 (by rw [hRc]; rfl)
        rw [hRc, List.cons_append, crun_cons, if_neg (by simp [hr0])]
        exact Nat.zero_le _

/-- Any pass whose replacement text is nonempty and digit-free preserves
the absence of ten-digit runs: replacements cannot create or merge digit
runs. -/
theorem hasRun10_reSub (M : Option Char → List Char → Option Nat)
    (R : List Char) (hRne : R ≠ []) (hRd : ∀ c ∈ R, isDigitC c = false) :
    ∀ (n : Nat) (l : List Char), l.length ≤ n → ∀ p, hasRun10 l = false →
      hasRun10 (reSub M R p l) = false := by
  intro n
  induction n with
  | zero =>
    intro l hl p _
    have h0 : l = [] := List.length_eq_zero.mp (Nat.le_zero.mp hl)
    subst h0
    simp [reSub_nil, hasRun10]
  | succ n ih =>
    intro l hl p h
    cases l with
    | nil => simp [reSub_nil, hasRun10]
    | cons c cs =>
      obtain ⟨hhead, htail⟩ := hasRun10_cons_false c cs h
      cases hM : M p (c :: cs) with
      | none =>
        simp only [reSub_cons, hM]
        have hw : hasRun10 (reSub M R (some c) cs) = false :=
          ih cs (Nat.le_of_succ_le_succ hl) (some c) htail
        have hRhead : ∀ c', R.head? = some c' → isDigitC c' = false := by
          intro c' hc'
          apply hRd
          cases R with
          | nil => cases hc'
          | cons r0 R' =>
            simp only [List.head?_cons, Option.some.injEq] at hc'
            simp [hc']
        have hcr : crun isDigitC (reSub M R (some c) cs) ≤ crun isDigitC cs :=
          crun_reSub_le isDigitC M R hRne hRhead cs.length cs (le_refl _) (some c)
        show (decide (10 ≤ drun (c :: reSub M R (some c) cs)) ||
          hasRun10 (reSub M R (some c) cs)) = false
        rw [hw, drun_cons]
        rw [drun_cons] at hhead
        by_cases hq : isDigitC c
        · rw [if_pos hq]
          rw [if_pos hq] at hhead
          have : drun (reSub M R (some c) cs) ≤ drun cs := hcr
          simp only [Bool.or_false, decide_eq_false_iff_not]
          unfold drun at *
          omega
        · rw [if_neg hq]
          simp
      | some k =>
        simp only [reSub_cons, hM]
        have hrest : hasRun10 (cs.drop k) = false := hasRun10_drop k cs htail
        have hw : hasRun10 (reSub M R ((c :: cs)[k]?) (cs.drop k)) = false := by
          refine ih (cs.drop k) ?_ _ hrest
          have := List.length_drop k cs
          have hlen : (c :: cs).length = cs.length + 1 := rfl
          omega
        rw [hasRun10_append_nodigit R _ hRd]
        exact hw

/-- The TIMESTAMP pass leaves no ten-digit run behind: wherever the
leading digit run is 10 or longer the matcher fires and consumes 10-13 of
its digits, so at every kept position the remaining run is at most 9, and
the digit-free replacement text never merges runs. -/
theorem hasRun10_tsSub :
    ∀ (n : Nat) (l : List Char), l.length ≤ n → ∀ p,
      hasRun10 (reSub tsM ("{TIMESTAMP}".toList) p l) = false := by
  intro n
  induction n with
  | zero =>
    intro l hl p
    have h0 : l = [] := List.length_eq_zero.mp (Nat.le_zero.mp hl)
    subst h0
    simp [reSub_nil, hasRun10]
  | succ n ih =>
    intro l hl p
    cases l with
    | nil => simp [reSub_nil, hasRun10]
    | cons c cs =>
      cases hM : tsM p (c :: cs) with
      | none =>
        simp only [reSub_cons, hM]
        have hlt : drun (c :: cs) ≤ 9 := by
          unfold tsM at hM
          by_cases h10 : 10 ≤ drun (c :: cs)
          · rw [if_pos h10] at hM
            cases hM
          · omega
        have hw : hasRun10 (reSub tsM ("{TIMESTAMP}".toList) (some c) cs) = false :=
          ih cs (Nat.le_of_succ_le_succ hl) (some c)
        have hcr : crun isDigitC (reSub tsM ("{TIMESTAMP}".toList) (some c) cs) ≤
            crun isDigitC cs :=
          crun_reSub_le isDigitC tsM ("{TIMESTAMP}".toList) (by decide)
            (by intro c' hc'; simp at hc'; subst hc'; rfl)
            cs.length cs (le_refl _) (some c)
        show (decide (10 ≤ drun (c :: reSub tsM ("{TIMESTAMP}".toList) (some c) cs)) ||
          hasRun10 (reSub tsM ("{TIMESTAMP}".toList) (some c) cs)) = false
        rw [hw, drun_cons]
        rw [drun_cons] at hlt
        by_cases hq : isDigitC c
        · rw [if_pos hq]
          rw [if_pos hq] at hlt
          simp only [Bool.or_false, decide_eq_false_iff_not]
          unfold drun at *
          omega
        · rw [if_neg hq]
          simp
      | some k =>
        simp only [reSub_cons, hM]
        have hw : hasRun10 (reSub tsM ("{TIMESTAMP}".toList) ((c :: cs)[k]?) (cs.drop k)) = false := by
          refine ih (cs.drop k) ?_ _
          have := List.length_drop k cs
          have hlen : (c :: cs).length = cs.length + 1 := rfl
          omega
        rw [hasRun10_append_nodigit _ _ (by decide)]
        exact hw

/-- C10: the output of `extract_key_pattern` never contains ten or more
consecutive decimal digits: the TIMESTAMP pass shortens every 10+-digit
run below ten, and every later pass substitutes digit-free placeholder
text that can neither introduce nor merge digit runs. -/
theorem extract_no_ten_digit_run (key : Option String) :
    hasRun10 (extract_key_pattern key).toList = false := by
  cases key with
  | none => decide
  | some s =>
    by_cases hs : s = ""
    · subst hs
      decide
    · have he : extract_key_pattern (some s) = applySubs s := by
        simp [extract_key_pattern, hs]
      rw [he]
      show hasRun10 (ipSub (hashSub (usr2Sub (usr1Sub (dateSub (tsSub (uuidSub s.toList))))))) = false
      have h2 : hasRun10 (tsSub (uuidSub s.toList)) = false :=
        hasRun10_tsSub _ _ (le_refl _) none
      have h3 : hasRun10 (dateSub (tsSub (uuidSub s.toList))) = false :=
        hasRun10_reSub dateM _ (by decide) (by decide) _ _ (le_refl _) none h2
      have h4 : hasRun10 (usr1Sub (dateSub (tsSub (uuidSub s.toList)))) = false :=
        hasRun10_reSub usr1M _ (by decide) (by decide) _ _ (le_refl _) none h3
      have h5 : hasRun10 (usr2Sub (usr1Sub (dateSub (tsSub (uuidSub s.toList))))) = false :=
        hasRun10_reSub usr2M _ (by decide) (by decide) _ _ (le_refl _) none h4
      have h6 : hasRun10 (hashSub (usr2Sub (usr1Sub (dateSub (tsSub (uuidSub s.toList)))))) = false :=
        hasRun10_reSub hashM _ (by decide) (by decide) _ _ (le_refl _) none h5
      exact hasRun10_reSub ipM _ (by decide) (by decide) _ _ (le_refl _) none h6

/-- The character just before position `i` of `l` (`none` at the start,
or the scanner's inherited context when `i = 0`): the look-behind that
`\b` inspects. -/
def ctxAt (p : Option Char) (l : List Char) (i : Nat) : Option Char :=
  if i = 0 then p else l[i - 1]?

/-- The look-behind context after an entire prefix has been scanned. -/
def prevAt (p : Option Char) (a : List Char) : Option Char :=
  if a.isEmpty then p else a.getLast?

/-- `ctxAt` at position zero is the inherited context. -/
theorem ctxAt_zero (p : Option Char) (l : List Char) : ctxAt p l 0 = p := rfl

/-- Shifting `ctxAt` across a kept head character. -/
theorem ctxAt_cons (p : Option Char) (c : Char) (l : List Char) (j : Nat) :
    ctxAt p (c :: l) (j + 1) = ctxAt (some c) l j := by
  cases j with
  | zero => simp [ctxAt]
  | succ j => simp [ctxAt]

/-- `prevAt` across a head character. -/
theorem prevAt_cons (p : Option Char) (c : Char) (a : List Char) :
    prevAt p (c :: a) = prevAt (some c) a := by
  cases a with
  | nil => rfl
  | cons a0 a1 =>
    show (c :: a0 :: a1).getLast? = (a0 :: a1).getLast?
    simp [List.getLast?_cons_cons]

/-- `M` never fires anywhere along `l`, with look-behind contexts taken
inside `l` itself (initial context `p`). -/
def NoFireM (M : Option Char → List Char → Option Nat) (p : Option Char)
    (l : List Char) : Prop :=
  ∀ i : Nat, M (ctxAt p l i) (l.drop i) = none

/-- A never-firing scan leaves the string unchanged. -/
theorem reSub_id (M : Option Char → List Char → Option Nat) (R : List Char) :
    ∀ (n : Nat) (l : List Char), l.length ≤ n → ∀ p, NoFireM M p l →
      reSub M R p l = l := by
  intro n
  induction n with
  | zero =>
    intro l hl p _
    have h0 : l = [] := List.length_eq_zero.mp (Nat.le_zero.mp hl)
    subst h0
    rfl
  | succ n ih =>
    intro l hl p h
    cases l with
    | nil => rfl
    | cons c cs =>
      have h0 : M p (c :: cs) = none := h 0
      rw [reSub_cons, h0]
      have htail : NoFireM M (some c) cs := by
        intro j
        have := h (j + 1)
        rwa [ctxAt_cons] at this
      rw [ih cs (Nat.le_of_succ_le_succ hl) (some c) htail]

/-- A no-fire region restricts to its tail. -/
theorem NoFireM_cons (M : Option Char → List Char → Option Nat)
    (p : Option Char) (c : Char) (cs : List Char)
    (h : NoFireM M p (c :: cs)) : NoFireM M (some c) cs := by
  intro j
  have := h (j + 1)
  rwa [ctxAt_cons] at this

/-- A no-fire region restricts to any suffix, with the context inherited
from the last dropped character. -/
theorem NoFireM_drop (M : Option Char → List Char → Option Nat)
    (p : Option Char) (l : List Char) (h : NoFireM M p l)
    (m : Nat) (hm : 1 ≤ m) : NoFireM M (l[m - 1]?) (l.drop m) := by
  intro j
  have hmain := h (m + j)
  have hctx : ctxAt p l (m + j) = ctxAt (l[m - 1]?) (l.drop m) j := by
    cases j with
    | zero =>
      show ctxAt p l (m + 0) = l[m - 1]?
      unfold ctxAt
      simp only [Nat.add_zero]
      rw [if_neg (by omega)]
    | succ j =>
      show ctxAt p l (m + (j + 1)) = ctxAt (l[m - 1]?) (l.drop m) (j + 1)
      unfold ctxAt
      rw [if_neg (by omega), if_neg (by omega), List.getElem?_drop]
      congr 1
  have hdrop : l.drop (m + j) = (l.drop m).drop j := by
    rw [List.drop_drop]
  rw [hctx, hdrop] at hmain
  exact hmain

/-- If every position strictly inside `a` fails to match, the scanner
copies `a` verbatim and continues on `b` with the context of `a`'s last
character. -/
theorem reSub_append_keeps (M : Option Char → List Char → Option Nat)
    (R : List Char) :
    ∀ (a b : List Char) (p : Option Char),
      (∀ i, i < a.length → M (ctxAt p (a ++ b) i) ((a ++ b).drop i) = none) →
      reSub M R p (a ++ b) = a ++ reSub M R (prevAt p a) b := by
  intro a
  induction a with
  | nil =>
    intro b p _
    simp [prevAt]
  | cons a0 a1 ih =>
    intro b p h
    have h0 : M p (a0 :: (a1 ++ b)) = none := by
      have := h 0 (by simp)
      exact this
    show reSub M R p (a0 :: (a1 ++ b)) = a0 :: a1 ++ reSub M R (prevAt p (a0 :: a1)) b
    rw [reSub_cons, h0, prevAt_cons]
    show a0 :: reSub M R (some a0) (a1 ++ b) = a0 :: a1 ++ reSub M R (prevAt (some a0) a1) b
    show a0 :: reSub M R (some a0) (a1 ++ b) = a0 :: a1 ++ reSub M R (prevAt (some a0) a1) b
    have hshift : ∀ i, i < a1.length →
        M (ctxAt (some a0) (a1 ++ b) i) ((a1 ++ b).drop i) = none := by
      intro i hi
      have := h (i + 1) (by simp; omega)
      rwa [show (a0 :: a1) ++ b = a0 :: (a1 ++ b) from rfl, ctxAt_cons] at this
    rw [ih b (some a0) hshift]
    rfl

/-- Either the scanner never fires (identity), or there is a first fire:
a kept prefix along which nothing matches, then a match. -/
theorem reSub_first_fire (M : Option Char → List Char → Option Nat)
    (R : List Char) :
    ∀ (n : Nat) (l : List Char), l.length ≤ n → ∀ p,
      reSub M R p l = l ∨
      ∃ j k, j < l.length ∧
        (∀ i, i < j → M (ctxAt p l i) (l.drop i) = none) ∧
        M (ctxAt p l j) (l.drop j) = some k ∧
        reSub M R p l =
          l.take j ++ R ++ reSub M R ((l.drop j)[k]?) ((l.drop j).drop (k + 1)) := by
  intro n
  induction n with
  | zero =>
    intro l hl p
    have h0 : l = [] := List.length_eq_zero.mp (Nat.le_zero.mp hl)
    subst h0
    left
    rfl
  | succ n ih =>
    intro l hl p
    cases l with
    | nil => left; rfl
    | cons c cs =>
      cases hM : M p (c :: cs) with
      | some k =>
        right
        refine ⟨0, k, by simp, by omega, hM, ?_⟩
        rw [reSub_cons, hM]
        rfl
      | none =>
        rcases ih cs (Nat.le_of_succ_le_succ hl) (some c) with hid | ⟨j, k, hj, hkeep, hfire, hexp⟩
        · left
          rw [reSub_cons, hM, hid]
        · right
          refine ⟨j + 1, k, by simp; omega, ?_, ?_, ?_⟩
          · intro i hi
            cases i with
            | zero => exact hM
            | succ i =>
              rw [ctxAt_cons]
              exact hkeep i (by omega)
          · rw [ctxAt_cons]
            exact hfire
          · rw [reSub_cons, hM, hexp]
            rfl

/-- The head of a scanned string is the original head or the head of the
replacement. -/
theorem reSub_head (M : Option Char → List Char → Option Nat) (R : List Char)
    (hR : R ≠ []) (p : Option Char) (l : List Char) :
    (reSub M R p l).head? = l.head? ∨ (reSub M R p l).head? = R.head? := by
  cases l with
  | nil => left; rfl
  | cons c cs =>
    cases hM : M p (c :: cs) with
    | none =>
      left
      rw [reSub_cons, hM]
      rfl
    | some k =>
      right
      rw [reSub_cons, hM]
      cases R with
      | nil => exact absurd rfl hR
      | cons r0 R' => rfl

/-- The leading run is no longer than the list. -/
theorem crun_le_length (q : Char → Bool) (l : List Char) : crun q l ≤ l.length := by
  induction l with
  | nil => exact Nat.le_refl 0
  | cons c cs ih =>
    rw [crun_cons]
    by_cases hq : q c
    · rw [if_pos hq]
      exact Nat.succ_le_succ ih
    · rw [if_neg hq]
      exact Nat.zero_le _

/-- Characters strictly inside the leading run satisfy `q`. -/
theorem crun_mem (q : Char → Bool) :
    ∀ (l : List Char) (j : Nat), j < crun q l → ∀ c, l[j]? = some c → q c = true := by
  intro l
  induction l with
  | nil => intro j hj; rw [crun] at hj; omega
  | cons c0 cs ih =>
    intro j hj c hc
    rw [crun_cons] at hj
    by_cases hq : q c0
    · rw [if_pos hq] at hj
      cases j with
      | zero =>
        simp only [List.getElem?_cons_zero, Option.some.injEq] at hc
        rwa [← hc]
      | succ j =>
        simp only [List.getElem?_cons_succ] at hc
        exact ih j (by omega) c hc
    · rw [if_neg hq] at hj
      omega

/-- The character right after the leading run (if any) fails `q`. -/
theorem crun_stop (q : Char → Bool) :
    ∀ (l : List Char) (c : Char), (l.drop (crun q l)).head? = some c → q c = false := by
  intro l
  induction l with
  | nil => intro c hc; cases hc
  | cons c0 cs ih =>
    intro c hc
    by_cases hq : q c0
    · rw [show crun q (c0 :: cs) = crun q cs + 1 by rw [crun_cons, if_pos hq]] at hc
      exact ih c hc
    · rw [show crun q (c0 :: cs) = 0 by rw [crun_cons, if_neg hq]] at hc
      simp only [List.drop_zero, List.head?_cons, Option.some.injEq] at hc
      rw [← hc]
      cases hb : q c0 with
      | false => rfl
      | true => exact absurd hb hq

/-- The leading run across a boundary: an all-`q` block followed by a
failing head gives exactly the block's length. -/
theorem crun_append_run (q : Char → Bool) (a b : List Char)
    (ha : ∀ c ∈ a, q c = true) (hb : ∀ c, b.head? = some c → q c = false) :
    crun q (a ++ b) = a.length := by
  induction a with
  | nil =>
    cases b with
    | nil => rfl
    | cons b0 bs =>
      show crun q (b0 :: bs) = 0
      rw [crun_cons, if_neg (by simp [hb b0 rfl])]
  | cons a0 a1 ih =>
    show crun q (a0 :: (a1 ++ b)) = a1.length + 1
    rw [crun_cons, if_pos (ha a0 (by simp)), ih (fun c hc => ha c (by simp [hc]))]

/-- A leading run that stops inside a prefix is unaffected by what
follows the prefix. -/
theorem crun_append_lt (q : Char → Bool) :
    ∀ (a b : List Char), crun q a < a.length → crun q (a ++ b) = crun q a := by
  intro a
  induction a with
  | nil => intro b h; exact absurd h (by simp [crun])
  | cons a0 a1 ih =>
    intro b h
    by_cases hq : q a0
    · have h1 : crun q (a0 :: a1) = crun q a1 + 1 := by rw [crun_cons, if_pos hq]
      have h2 : crun q (a0 :: (a1 ++ b)) = crun q (a1 ++ b) + 1 := by rw [crun_cons, if_pos hq]
      have hlt : crun q a1 < a1.length := by
        rw [h1] at h
        have hlen : (a0 :: a1).length = a1.length + 1 := rfl
        omega
      rw [h1]
      show crun q (a0 :: (a1 ++ b)) = crun q a1 + 1
      rw [h2, ih b hlt]
    · have h1 : crun q (a0 :: a1) = 0 := by rw [crun_cons, if_neg hq]
      have h2 : crun q (a0 :: (a1 ++ b)) = 0 := by rw [crun_cons, if_neg hq]
      rw [h1]
      exact h2

/-- Conversely, if the run of the whole stops inside the prefix then the
prefix alone has the same run. -/
theorem crun_prefix_eq (q : Char → Bool) :
    ∀ (a u : List Char), crun q (a ++ u) < a.length → crun q a = crun q (a ++ u) := by
  intro a
  induction a with
  | nil => intro u h; rw [List.length_nil] at h; omega
  | cons a0 a1 ih =>
    intro u h
    have h2 : crun q (a0 :: (a1 ++ u)) = if q a0 then crun q (a1 ++ u) + 1 else 0 :=
      crun_cons _ _ _
    have hx : (a0 :: a1) ++ u = a0 :: (a1 ++ u) := rfl
    by_cases hq : q a0
    · have hl : crun q (a0 :: (a1 ++ u)) = crun q (a1 ++ u) + 1 := by rw [h2, if_pos hq]
      have hlen : (a0 :: a1).length = a1.length + 1 := rfl
      have hlt : crun q (a1 ++ u) < a1.length := by
        rw [hx, hl] at h
        omega
      have hih : crun q a1 = crun q (a1 ++ u) := ih u hlt
      rw [show crun q (a0 :: a1) = crun q a1 + 1 by rw [crun_cons, if_pos hq],
        hx, hl, hih]
    · rw [show crun q (a0 :: a1) = 0 by rw [crun_cons, if_neg hq],
        hx, h2, if_neg hq]

/-- Every character of the leading-run prefix satisfies `q`. -/
theorem take_crun_all (q : Char → Bool) (l : List Char) :
    ∀ c ∈ l.take (crun q l), q c = true := by
  intro c hc
  obtain ⟨j, hj, he⟩ := List.getElem_of_mem hc
  have hjlt : j < crun q l := by
    have := List.length_take (crun q l) l
    omega
  have : (l.take (crun q l))[j]? = some c := by
    rw [List.getElem?_eq_getElem hj, he]
  rw [List.getElem?_take, if_pos hjlt] at this
  exact crun_mem q l j hjlt c this

/-- Hexadecimal digits are word characters. -/
theorem hex_word (c : Char) (h : isHexC c = true) : isWordC c = true := by
  unfold isHexC at h
  unfold isWordC
  rcases Bool.or_eq_true_iff.mp h with h' | h'
  · rcases Bool.or_eq_true_iff.mp h' with h'' | h''
    · simp [h'']
    · rcases Bool.and_eq_true_iff.mp h'' with ⟨h1, h2⟩
      have h1' : 'a' ≤ c := of_decide_eq_true h1
      have h3 : c ≤ 'z' := le_trans (of_decide_eq_true h2) (by decide)
      simp [h1', h3]
  · rcases Bool.and_eq_true_iff.mp h' with ⟨h1, h2⟩
    have h1' : 'A' ≤ c := of_decide_eq_true h1
    have h3 : c ≤ 'Z' := le_trans (of_decide_eq_true h2) (by decide)
    simp [h1', h3]

/-- Decimal digits are hexadecimal digits. -/
theorem digit_hex (c : Char) (h : isDigitC c = true) : isHexC c = true := by
  unfold isHexC
  simp [h]

/-- Decimal digits are word characters. -/
theorem digit_word (c : Char) (h : isDigitC c = true) : isWordC c = true := by
  unfold isWordC
  simp [h]

/-- A non-word character is not a hexadecimal digit. -/
theorem nonword_nonhex (c : Char) (h : isWordC c = false) : isHexC c = false := by
  cases hh : isHexC c with
  | false => rfl
  | true => rw [hex_word c hh] at h; cases h

/-- A non-word character is not a decimal digit. -/
theorem nonword_nondigit (c : Char) (h : isWordC c = false) : isDigitC c = false := by
  cases hh : isDigitC c with
  | false => rfl
  | true => rw [digit_word c hh] at h; cases h

/-- `noShape shp k l`: no position of `l` starts a `k`-character window
satisfying the shape test `shp`. -/
def noShape (shp : List Char → Bool) (k : Nat) (l : List Char) : Prop :=
  ∀ i : Nat, shp ((l.drop i).take k) = false

/-- Any window of the scanner's output either contains a `{` from a
replacement or is the corresponding window of the input. -/
theorem reSub_take_agree (M : Option Char → List Char → Option Nat)
    (R : List Char) (hR : R.head? = some '{') :
    ∀ (l : List Char) (p : Option Char) (k : Nat),
      '{' ∈ (reSub M R p l).take k ∨ (reSub M R p l).take k = l.take k := by
  intro l
  induction l with
  | nil => intro p k; right; rfl
  | cons c cs ih =>
    intro p k
    cases hM : M p (c :: cs) with
    | none =>
      rw [reSub_cons, hM]
      cases k with
      | zero => right; rfl
      | succ k =>
        rcases ih (some c) k with hbr | heq
        · left
          show '{' ∈ (c :: reSub M R (some c) cs).take (k + 1)
          rw [List.take_succ_cons]
          exact List.mem_cons_of_mem _ hbr
        · right
          show (c :: reSub M R (some c) cs).take (k + 1) = (c :: cs).take (k + 1)
          rw [List.take_succ_cons, List.take_succ_cons, heq]
    | some n =>
      rw [reSub_cons, hM]
      cases k with
      | zero => right; rfl
      | succ k =>
        left
        cases R with
        | nil => cases hR
        | cons r0 R' =>
          have hr0 : r0 = '{' := by
            simpa using hR
          subst hr0
          show '{' ∈ (('{' :: R') ++ reSub M ('{' :: R') ((c :: cs)[n]?) (cs.drop n)).take (k + 1)
          rw [List.cons_append, List.take_succ_cons]
          exact List.mem_cons_self _ _

/-- `noShape` restricts to suffixes. -/
theorem noShape_drop (shp : List Char → Bool) (k : Nat) (l : List Char)
    (h : noShape shp k l) (m : Nat) : noShape shp k (l.drop m) := by
  intro i
  rw [List.drop_drop]
  exact h (m + i)

/-- The last element of a list belongs to every proper truncation from
the left. -/
theorem getLast_mem_drop :
    ∀ (R : List Char) (i : Nat), i < R.length → ∀ x, R.getLast? = some x →
      x ∈ R.drop i := by
  intro R
  induction R with
  | nil => intro i hi; rw [List.length_nil] at hi; omega
  | cons r R' ih =>
    intro i hi x hx
    cases R' with
    | nil =>
      have h0 : i = 0 := by
        have : (r :: ([] : List Char)).length = 1 := rfl
        omega
      subst h0
      simp only [List.getLast?_singleton, Option.some.injEq] at hx
      subst hx
      simp
    | cons r1 R1 =>
      rw [List.getLast?_cons_cons] at hx
      cases i with
      | zero =>
        have : x ∈ r1 :: R1 := ih 0 (by simp) x hx
        simp only [List.drop_zero]
        exact List.mem_cons_of_mem _ this
      | succ i =>
        have hi' : i < (r1 :: R1).length := by
          have : (r :: r1 :: R1).length = (r1 :: R1).length + 1 := rfl
          omega
        exact ih i hi' x hx

/-- A member of a short block stays inside the `k`-window of the block
plus anything after it. -/
theorem mem_take_append (x : Char) (a w : List Char) (k : Nat)
    (hx : x ∈ a) (hk : a.length ≤ k) : x ∈ (a ++ w).take k := by
  have hsplit : k = a.length + (k - a.length) := by omega
  rw [hsplit, List.take_append]
  exact List.mem_append_left _ hx

/-- A pass whose replacement is brace-delimited and short preserves the
absence of brace-free shapes: a shape window in the output either
contains a replacement brace (impossible for the shape) or is a window
of the input. -/
theorem noShape_reSub_pres (shp : List Char → Bool) (k : Nat)
    (M : Option Char → List Char → Option Nat) (R : List Char)
    (hk : 1 ≤ k)
    (hbr : ∀ t, '{' ∈ t → shp t = false)
    (hbr2 : ∀ t, '}' ∈ t → shp t = false)
    (hR1 : R.head? = some '{') (hR2 : R.getLast? = some '}')
    (hRlen : R.length ≤ k + 1) :
    ∀ (n : Nat) (l : List Char), l.length ≤ n → ∀ p,
      noShape shp k l → noShape shp k (reSub M R p l) := by
  intro n
  induction n with
  | zero =>
    intro l hl p h
    have h0 : l = [] := List.length_eq_zero.mp (Nat.le_zero.mp hl)
    subst h0
    exact h
  | succ n ih =>
    intro l hl p h
    cases l with
    | nil => exact h
    | cons c cs =>
      cases hM : M p (c :: cs) with
      | none =>
        intro i
        rw [reSub_cons, hM]
        cases i with
        | zero =>
          simp only [List.drop_zero]
          rcases reSub_take_agree M R hR1 (c :: cs) p k with hb | heq
          · rw [reSub_cons, hM] at hb
            exact hbr _ hb
          · rw [reSub_cons, hM] at heq
            rw [heq]
            have := h 0
            rwa [List.drop_zero] at this
        | succ i =>
          show shp (((reSub M R (some c) cs).drop i).take k) = false
          exact ih cs (Nat.le_of_succ_le_succ hl) (some c)
            (fun j => by have := h (j + 1); rwa [List.drop_succ_cons] at this) i
      | some m =>
        intro i
        rw [reSub_cons, hM]
        by_cases hiR : i < R.length
        · have hdrop : ((R ++ reSub M R ((c :: cs)[m]?) (cs.drop m)).drop i) =
              R.drop i ++ reSub M R ((c :: cs)[m]?) (cs.drop m) :=
            List.drop_append_of_le_length (by omega)
          rw [hdrop]
          cases hi0 : i with
          | zero =>
            cases R with
            | nil => cases hR1
            | cons r0 R' =>
              have hr0 : r0 = '{' := by simpa using hR1
              subst hr0
              apply hbr
              show '{' ∈ (('{' :: R') ++ _).take k
              rw [List.cons_append]
              cases k with
              | zero => omega
              | succ k =>
                rw [List.take_succ_cons]
                exact List.mem_cons_self _ _
          | succ i' =>
            apply hbr2
            apply mem_take_append
            · exact getLast_mem_drop R (i' + 1) (by omega) '}' hR2
            · have := List.length_drop (i' + 1) R
              omega
        · have hdecomp : i = R.length + (i - R.length) := by omega
          rw [hdecomp, List.drop_append]
          show shp (((reSub M R ((c :: cs)[m]?) (cs.drop m)).drop (i - R.length)).take k) = false
          refine ih (cs.drop m) ?_ ((c :: cs)[m]?) ?_ (i - R.length)
          · have := List.length_drop m cs
            have hlen : (c :: cs).length = cs.length + 1 := rfl
            omega
          · have hsuffix : noShape shp k ((c :: cs).drop (m + 1)) :=
              noShape_drop shp k (c :: cs) h (m + 1)
            have : (c :: cs).drop (m + 1) = cs.drop m := rfl
            rwa [this] at hsuffix

/-- A pass removes all shapes that make its own matcher fire: at every
kept position the matcher was consulted and declined, so the window there
cannot be a shape; replaced regions leave only brace-containing windows. -/
theorem noShape_reSub_self (shp : List Char → Bool) (k : Nat)
    (M : Option Char → List Char → Option Nat) (R : List Char)
    (hk : 1 ≤ k) (hnil : shp [] = false)
    (hbr : ∀ t, '{' ∈ t → shp t = false)
    (hbr2 : ∀ t, '}' ∈ t → shp t = false)
    (hR1 : R.head? = some '{') (hR2 : R.getLast? = some '}')
    (hRlen : R.length ≤ k + 1)
    (hfire : ∀ p y, shp (y.take k) = true → M p y ≠ none) :
    ∀ (n : Nat) (l : List Char), l.length ≤ n → ∀ p,
      noShape shp k (reSub M R p l) := by
  intro n
  induction n with
  | zero =>
    intro l hl p
    have h0 : l = [] := List.length_eq_zero.mp (Nat.le_zero.mp hl)
    subst h0
    intro i
    simp [reSub_nil, hnil]
  | succ n ih =>
    intro l hl p
    cases l with
    | nil => intro i; simp [reSub_nil, hnil]
    | cons c cs =>
      cases hM : M p (c :: cs) with
      | none =>
        intro i
        rw [reSub_cons, hM]
        cases i with
        | zero =>
          simp only [List.drop_zero]
          rcases reSub_take_agree M R hR1 (c :: cs) p k with hb | heq
          · rw [reSub_cons, hM] at hb
            exact hbr _ hb
          · rw [reSub_cons, hM] at heq
            rw [heq]
            cases hsh : shp ((c :: cs).take k) with
            | false => rfl
            | true => exact absurd hM (hfire p (c :: cs) hsh)
        | succ i =>
          show shp (((reSub M R (some c) cs).drop i).take k) = false
          exact ih cs (Nat.le_of_succ_le_succ hl) (some c) i
      | some m =>
        intro i
        rw [reSub_cons, hM]
        by_cases hiR : i < R.length
        · have hdrop : ((R ++ reSub M R ((c :: cs)[m]?) (cs.drop m)).drop i) =
              R.drop i ++ reSub M R ((c :: cs)[m]?) (cs.drop m) :=
            List.drop_append_of_le_length (by omega)
          rw [hdrop]
          cases hi0 : i with
          | zero =>
            cases R with
            | nil => cases hR1
            | cons r0 R' =>
              have hr0 : r0 = '{' := by simpa using hR1
              subst hr0
              apply hbr
              show '{' ∈ (('{' :: R') ++ _).take k
              rw [List.cons_append]
              cases k with
              | zero => omega
              | succ k =>
                rw [List.take_succ_cons]
                exact List.mem_cons_self _ _
          | succ i' =>
            apply hbr2
            apply mem_take_append
            · exact getLast_mem_drop R (i' + 1) (by omega) '}' hR2
            · have := List.length_drop (i' + 1) R
              omega
        · have hdecomp : i = R.length + (i - R.length) := by omega
          rw [hdecomp, List.drop_append]
          show shp (((reSub M R ((c :: cs)[m]?) (cs.drop m)).drop (i - R.length)).take k) = false
          refine ih (cs.drop m) ?_ ((c :: cs)[m]?) (i - R.length)
          have := List.length_drop m cs
          have hlen : (c :: cs).length = cs.length + 1 := rfl
          omega

/-- Characters of an all-`q` segment `t[m..m+len)` satisfy `q`. -/
theorem seg_class (q : Char → Bool) (t : List Char) (m len i : Nat)
    (h : ((t.drop m).take len).all q = true) (hmi : m ≤ i) (hil : i < m + len) :
    ∀ c, t[i]? = some c → q c = true := by
  intro c hc
  have h1 : (t.drop m)[i - m]? = some c := by
    rw [List.getElem?_drop, show m + (i - m) = i by omega]
    exact hc
  have h2 : ((t.drop m).take len)[i - m]? = some c := by
    rw [List.getElem?_take, if_pos (by omega)]
    exact h1
  have h3 : c ∈ (t.drop m).take len := List.getElem?_mem h2
  exact List.all_eq_true.mp h c h3

/-- Every character of a UUID window is a hexadecimal digit or a dash. -/
theorem isUuid36_class (t : List Char) (h : isUuid36 t = true) :
    ∀ c ∈ t, isHexC c = true ∨ c = '-' := by
  intro c hc
  obtain ⟨i, hi, he⟩ := List.getElem_of_mem hc
  have hio : t[i]? = some c := by rw [List.getElem?_eq_getElem hi, he]
  unfold isUuid36 at h
  simp only [Bool.and_eq_true, decide_eq_true_eq] at h
  obtain ⟨⟨⟨⟨⟨⟨⟨⟨⟨hlen, h1⟩, h2⟩, h3⟩, h4⟩, h5⟩, h6⟩, h7⟩, h8⟩, h9⟩ := h
  have hi36 : i < 36 := by
    rw [List.getElem?_eq_getElem hi] at hio
    omega
  rcases (by omega :
      i < 8 ∨ i = 8 ∨ (9 ≤ i ∧ i < 13) ∨ i = 13 ∨ (14 ≤ i ∧ i < 18) ∨ i = 18 ∨
      (19 ≤ i ∧ i < 23) ∨ i = 23 ∨ (24 ≤ i ∧ i < 36)) with
    hr | hr | hr | hr | hr | hr | hr | hr | hr
  · left
    refine seg_class isHexC t 0 8 i ?_ (by omega) (by omega) c hio
    rw [List.drop_zero]
    exact h1
  · right
    rw [hr, h2] at hio
    exact (Option.some.inj hio).symm
  · left
    exact seg_class isHexC t 9 4 i h3 (by omega) (by omega) c hio
  · right
    rw [hr, h4] at hio
    exact (Option.some.inj hio).symm
  · left
    exact seg_class isHexC t 14 4 i h5 (by omega) (by omega) c hio
  · right
    rw [hr, h6] at hio
    exact (Option.some.inj hio).symm
  · left
    exact seg_class isHexC t 19 4 i h7 (by omega) (by omega) c hio
  · right
    rw [hr, h8] at hio
    exact (Option.some.inj hio).symm
  · left
    exact seg_class isHexC t 24 12 i h9 (by omega) (by omega) c hio

/-- Every character of a date window is a decimal digit or a dash. -/
theorem isDate10_class (t : List Char) (h : isDate10 t = true) :
    ∀ c ∈ t, isDigitC c = true ∨ c = '-' := by
  intro c hc
  obtain ⟨i, hi, he⟩ := List.getElem_of_mem hc
  have hio : t[i]? = some c := by rw [List.getElem?_eq_getElem hi, he]
  unfold isDate10 at h
  simp only [Bool.and_eq_true, decide_eq_true_eq] at h
  obtain ⟨⟨⟨⟨⟨hlen, h1⟩, h2⟩, h3⟩, h4⟩, h5⟩ := h
  have hi10 : i < 10 := by
    rw [List.getElem?_eq_getElem hi] at hio
    omega
  rcases (by omega :
      i < 4 ∨ i = 4 ∨ (5 ≤ i ∧ i < 7) ∨ i = 7 ∨ (8 ≤ i ∧ i < 10)) with
    hr | hr | hr | hr | hr
  · left
    refine seg_class isDigitC t 0 4 i ?_ (by omega) (by omega) c hio
    rw [List.drop_zero]
    exact h1
  · right
    rw [hr, h2] at hio
    exact (Option.some.inj hio).symm
  · left
    exact seg_class isDigitC t 5 2 i h3 (by omega) (by omega) c hio
  · right
    rw [hr, h4] at hio
    exact (Option.some.inj hio).symm
  · left
    exact seg_class isDigitC t 8 2 i h5 (by omega) (by omega) c hio

/-- UUID windows contain no brace characters. -/
theorem isUuid36_no_brace (t : List Char) (b : Char)
    (hb : b = '{' ∨ b = '}') (hmem : b ∈ t) : isUuid36 t = false := by
  cases hsh : isUuid36 t with
  | false => rfl
  | true =>
    exfalso
    rcases isUuid36_class t hsh b hmem with hx | hx
    · rcases hb with hb | hb <;> subst hb <;> simp [isHexC, isDigitC] at hx
    · rcases hb with hb | hb <;> subst hb <;> cases hx
  
/-- Date windows contain no brace characters. -/
theorem isDate10_no_brace (t : List Char) (b : Char)
    (hb : b = '{' ∨ b = '}') (hmem : b ∈ t) : isDate10 t = false := by
  cases hsh : isDate10 t with
  | false => rfl
  | true =>
    exfalso
    rcases isDate10_class t hsh b hmem with hx | hx
    · rcases hb with hb | hb <;> subst hb <;> simp [isDigitC] at hx
    · rcases hb with hb | hb <;> subst hb <;> cases hx

/-- Digit runs at every position of a run-free string stay below ten. -/
theorem drun_drop_le (l : List Char) (h : hasRun10 l = false) (k : Nat) :
    drun (l.drop k) ≤ 9 := by
  induction l generalizing k with
  | nil => simp [drun, crun]
  | cons c cs ih =>
    obtain ⟨h1, h2⟩ := hasRun10_cons_false c cs h
    cases k with
    | zero => exact h1
    | succ k => exact ih h2 k

/-- The UUID pass is the identity on a string with no UUID window. -/
theorem uuidSub_id (l : List Char) (h : noShape isUuid36 36 l) : uuidSub l = l := by
  unfold uuidSub
  refine reSub_id uuidM _ l.length l (le_refl _) none ?_
  intro i
  simp [uuidM, h i]

/-- The DATE pass is the identity on a string with no date window. -/
theorem dateSub_id (l : List Char) (h : noShape isDate10 10 l) : dateSub l = l := by
  unfold dateSub
  refine reSub_id dateM _ l.length l (le_refl _) none ?_
  intro i
  simp [dateM, h i]

/-- The TIMESTAMP pass is the identity on a string with no ten-digit run. -/
theorem tsSub_id (l : List Char) (h : hasRun10 l = false) : tsSub l = l := by
  unfold tsSub
  refine reSub_id tsM _ l.length l (le_refl _) none ?_
  intro i
  unfold tsM
  rw [if_neg ?_]
  have := drun_drop_le l h i
  omega

/-- The first USERID matcher cannot fire without a ten-digit run. -/
theorem usr1M_none (p : Option Char) (y : List Char) (hz : drun (y.drop 1) ≤ 9) :
    usr1M p y = none := by
  unfold usr1M
  split
  · rename_i z
    have hzz : drun z ≤ 9 := by simpa using hz
    rw [if_neg ?_]
    intro hcond
    rw [Bool.and_eq_true] at hcond
    have h1 := hcond.1
    rw [decide_eq_true_eq] at h1
    omega
  · rfl

/-- The second USERID matcher cannot fire without a ten-digit run. -/
theorem usr2M_none (p : Option Char) (y : List Char) (hz : drun (y.drop 1) ≤ 9) :
    usr2M p y = none := by
  unfold usr2M
  split
  · rename_i z
    have hzz : drun z ≤ 9 := by simpa using hz
    rw [if_neg ?_]
    intro hcond
    rw [Bool.and_eq_true] at hcond
    have h1 := hcond.1
    rw [decide_eq_true_eq] at h1
    omega
  · rfl

/-- The first USERID pass is the identity on a run-free string. -/
theorem usr1Sub_id (l : List Char) (h : hasRun10 l = false) : usr1Sub l = l := by
  unfold usr1Sub
  refine reSub_id usr1M _ l.length l (le_refl _) none ?_
  intro i
  refine usr1M_none _ _ ?_
  rw [List.drop_drop]
  exact drun_drop_le l h (i + 1)

/-- The second USERID pass is the identity on a run-free string. -/
theorem usr2Sub_id (l : List Char) (h : hasRun10 l = false) : usr2Sub l = l := by
  unfold usr2Sub
  refine reSub_id usr2M _ l.length l (le_refl _) none ?_
  intro i
  refine usr2M_none _ _ ?_
  rw [List.drop_drop]
  exact drun_drop_le l h (i + 1)

/-- `hashM` never fires on the empty suffix. -/
theorem hashM_nil (p : Option Char) : hashM p [] = none := by
  unfold hashM
  rw [if_neg ?_]
  intro hcond
  simp only [Bool.and_eq_true, decide_eq_true_eq] at hcond
  have := hcond.1.2
  simp [hrun, crun] at this

/-- `hashM` never fires after a word character. -/
theorem hashM_none_word (c : Char) (y : List Char) (hw : isWordC c = true) :
    hashM (some c) y = none := by
  unfold hashM
  rw [if_neg ?_]
  intro hcond
  simp only [Bool.and_eq_true] at hcond
  have hb := hcond.1.1
  simp [bdryB, hw] at hb

/-- `hashM` never fires without a left boundary. -/
theorem hashM_none_bdry (p : Option Char) (y : List Char) (hb : bdryB p = false) :
    hashM p y = none := by
  unfold hashM
  rw [if_neg ?_]
  intro hcond
  simp only [Bool.and_eq_true] at hcond
  rw [hb] at hcond
  exact absurd hcond.1.1 (by decide)

/-- `hashM` never fires on a short hex run. -/
theorem hashM_none_short (p : Option Char) (y : List Char) (hr : hrun y ≤ 31) :
    hashM p y = none := by
  unfold hashM
  rw [if_neg ?_]
  intro hcond
  simp only [Bool.and_eq_true, decide_eq_true_eq] at hcond
  have := hcond.1.2
  omega

/-- Characterization of a `hashM` fire. -/
theorem hashM_fire (p : Option Char) (y : List Char) (n : Nat)
    (h : hashM p y = some n) :
    bdryB p = true ∧ 32 ≤ hrun y ∧ nonWordHead (y.drop (hrun y)) = true ∧
      n = hrun y - 1 := by
  unfold hashM at h
  by_cases hcond : (bdryB p && decide (32 ≤ hrun y) && nonWordHead (y.drop (hrun y))) = true
  · simp only [Bool.and_eq_true, decide_eq_true_eq] at hcond
    rw [if_pos ?_] at h
    · refine ⟨hcond.1.1, hcond.1.2, hcond.2, ?_⟩
      exact (Option.some.inj h).symm
    · simp only [Bool.and_eq_true, decide_eq_true_eq]
      exact hcond
  · rw [if_neg hcond] at h
    cases h

/-- A failing right-boundary test exposes a word character. -/
theorem nonWordHead_false (z : List Char) (h : nonWordHead z = false) :
    ∃ g t, z = g :: t ∧ isWordC g = true := by
  cases z with
  | nil => cases h
  | cons g t =>
    refine ⟨g, t, rfl, ?_⟩
    simp only [nonWordHead] at h
    cases hg : isWordC g with
    | false => rw [hg] at h; exact absurd h (by decide)
    | true => rfl

/-- A passing right-boundary test makes the following hex run empty. -/
theorem hrun_zero_of_nonWordHead (z : List Char) (h : nonWordHead z = true) :
    hrun z = 0 := by
  cases z with
  | nil => rfl
  | cons g t =>
    simp only [nonWordHead] at h
    show crun isHexC (g :: t) = 0
    rw [crun_cons, if_neg ?_]
    intro hg
    rw [hex_word g hg] at h
    exact absurd h (by decide)

/-- `ipM` never fires on the empty suffix. -/
theorem ipM_nil (p : Option Char) : ipM p [] = none := by
  unfold ipM octDot
  by_cases hb : bdryB p
  · rw [if_pos hb]
    simp [drun, crun]
  · rw [if_neg hb]

/-- `ipM` never fires without a left boundary. -/
theorem ipM_none_bdry (p : Option Char) (y : List Char) (hb : bdryB p = false) :
    ipM p y = none := by
  unfold ipM
  rw [hb]
  rfl

/-- `ipM` never fires after a word character. -/
theorem ipM_none_word (c : Char) (y : List Char) (hw : isWordC c = true) :
    ipM (some c) y = none := by
  apply ipM_none_bdry
  simp [bdryB, hw]

/-- `ipM` never fires when the head is not a digit. -/
theorem ipM_none_head (p : Option Char) (y : List Char)
    (hd : ∀ c, y.head? = some c → isDigitC c = false) : ipM p y = none := by
  unfold ipM
  by_cases hb : bdryB p
  · rw [if_pos hb]
    have hoct : octDot y = none := by
      unfold octDot
      rw [if_neg ?_]
      intro hcond
      simp only [Bool.and_eq_true, decide_eq_true_eq] at hcond
      have h1 := hcond.1.1
      have hz : drun y = 0 := by
        cases y with
        | nil => rfl
        | cons c0 z =>
          show crun isDigitC (c0 :: z) = 0
          rw [crun_cons, if_neg ?_]
          rw [hd c0 rfl]
          simp
      omega
    rw [hoct]
  · rw [if_neg hb]

/-- Dropping exactly the length of the left block of an append. -/
theorem drop_append_len (A B : List Char) (m : Nat) (h : A.length = m) :
    (A ++ B).drop m = B := by
  subst h
  exact List.drop_left A B

/-- Core head-position argument shared by the HASH pass's self-analysis
and by later passes: if the scanner (with any boundary-respecting matcher
`M`) declines at the head of `c :: cs` and the HASH matcher also declines
there, then the HASH matcher still declines at the head of the scanned
output.  A long hex run with a failing right boundary is copied verbatim
together with its terminating word character, so its right boundary still
fails in the output. -/
theorem hash_head_keep (M : Option Char → List Char → Option Nat) (R : List Char)
    (hRne : R ≠ []) (hRhex : ∀ c, R.head? = some c → isHexC c = false)
    (hMword : ∀ (c : Char) (y : List Char), isWordC c = true → M (some c) y = none)
    (c : Char) (cs : List Char) (p : Option Char)
    (hM : M p (c :: cs) = none)
    (hh : hashM p (c :: cs) = none) :
    hashM p (reSub M R p (c :: cs)) = none := by
  by_cases hb : bdryB p = true
  case neg =>
    apply hashM_none_bdry
    cases hbb : bdryB p with
    | false => rfl
    | true => exact absurd hbb hb
  case pos =>
  by_cases h32 : 32 ≤ hrun (c :: cs)
  case neg =>
    apply hashM_none_short
    have hle : hrun (reSub M R p (c :: cs)) ≤ hrun (c :: cs) :=
      crun_reSub_le isHexC M R hRne hRhex (c :: cs).length (c :: cs) (le_refl _) p
    omega
  case pos =>
  have htrail : nonWordHead ((c :: cs).drop (hrun (c :: cs))) = false := by
    cases htr : nonWordHead ((c :: cs).drop (hrun (c :: cs))) with
    | false => rfl
    | true =>
      exfalso
      unfold hashM at hh
      rw [if_pos ?_] at hh
      · cases hh
      · simp only [Bool.and_eq_true, decide_eq_true_eq]
        exact ⟨⟨hb, h32⟩, htr⟩
  obtain ⟨g, t, hgt, hgw⟩ := nonWordHead_false _ htrail
  have hmlt : hrun (c :: cs) < (c :: cs).length := by
    by_contra hcon
    push_neg at hcon
    have hnil : (c :: cs).drop (hrun (c :: cs)) = [] := List.drop_eq_nil_of_le hcon
    rw [hnil] at hgt
    cases hgt
  have hg? : (c :: cs)[hrun (c :: cs)]? = some g := by
    have h1 : ((c :: cs).drop (hrun (c :: cs))).head? = some g := by rw [hgt]; rfl
    rwa [List.head?_drop] at h1
  have hgnothex : isHexC g = false := by
    refine crun_stop isHexC (c :: cs) g ?_
    show ((c :: cs).drop (hrun (c :: cs))).head? = some g
    rw [hgt]
    rfl
  have hsplit : c :: cs =
      (c :: cs).take (hrun (c :: cs) + 1) ++ (c :: cs).drop (hrun (c :: cs) + 1) :=
    (List.take_append_drop _ _).symm
  have hsteplen : ((c :: cs).take (hrun (c :: cs) + 1)).length = hrun (c :: cs) + 1 := by
    rw [List.length_take]
    omega
  have hstep : reSub M R p (c :: cs) =
      (c :: cs).take (hrun (c :: cs) + 1) ++
        reSub M R (prevAt p ((c :: cs).take (hrun (c :: cs) + 1)))
          ((c :: cs).drop (hrun (c :: cs) + 1)) := by
    conv_lhs => rw [hsplit]
    refine reSub_append_keeps M R _ _ p ?_
    intro i hi
    rw [← hsplit]
    rw [hsteplen] at hi
    cases i with
    | zero => exact hM
    | succ i' =>
      have hi'm : i' < hrun (c :: cs) := by omega
      obtain ⟨ch, hch⟩ : ∃ ch, (c :: cs)[i']? = some ch :=
        ⟨(c :: cs).get ⟨i', by omega⟩, List.getElem?_eq_getElem (by omega)⟩
      have hhex : isHexC ch = true := crun_mem isHexC (c :: cs) i' hi'm ch hch
      show M (ctxAt p (c :: cs) (i' + 1)) ((c :: cs).drop (i' + 1)) = none
      unfold ctxAt
      rw [if_neg (by omega)]
      simp only [Nat.add_sub_cancel]
      rw [hch]
      exact hMword ch _ (hex_word ch hhex)
  rw [hstep]
  set W : List Char := reSub M R (prevAt p ((c :: cs).take (hrun (c :: cs) + 1)))
    ((c :: cs).drop (hrun (c :: cs) + 1)) with hW
  have htake : (c :: cs).take (hrun (c :: cs) + 1) = (c :: cs).take (hrun (c :: cs)) ++ [g] := by
    rw [List.take_succ, hg?]
    rfl
  have hall : ∀ x ∈ (c :: cs).take (hrun (c :: cs)), isHexC x = true :=
    take_crun_all isHexC (c :: cs)
  have hB : ∀ x, ([g] ++ W).head? = some x → isHexC x = false := by
    intro x hx
    have hhd : ([g] ++ W).head? = some g := rfl
    rw [hhd] at hx
    rw [← Option.some.inj hx]
    exact hgnothex
  have houtrun : hrun ((c :: cs).take (hrun (c :: cs) + 1) ++ W) = hrun (c :: cs) := by
    rw [htake, List.append_assoc]
    have hres := crun_append_run isHexC ((c :: cs).take (hrun (c :: cs))) ([g] ++ W) hall hB
    have hlen : ((c :: cs).take (hrun (c :: cs))).length = hrun (c :: cs) := by
      rw [List.length_take]
      omega
    rw [hlen] at hres
    exact hres
  have houtdrop : ((c :: cs).take (hrun (c :: cs) + 1) ++ W).drop (hrun (c :: cs)) =
      g :: W := by
    rw [htake, List.append_assoc]
    exact drop_append_len _ _ _ (by rw [List.length_take]; omega)
  unfold hashM
  rw [if_neg ?_]
  intro hcond
  rw [houtrun, houtdrop] at hcond
  simp only [Bool.and_eq_true] at hcond
  have hnw := hcond.2
  simp only [nonWordHead, hgw] at hnw
  exact absurd hnw (by decide)

/-- Structure of a successful octet step. -/
theorem octDot_some (y : List Char) (k : Nat) (y' : List Char)
    (h : octDot y = some (k, y')) :
    k = drun y + 1 ∧ y' = y.drop k ∧ 1 ≤ drun y ∧ drun y ≤ 3 ∧
      (y.drop (drun y)).head? = some '.' := by
  unfold octDot at h
  split at h
  · rename_i hcond
    simp only [Bool.and_eq_true, decide_eq_true_eq] at hcond
    obtain ⟨hk, hy'⟩ := Prod.mk.injEq .. ▸ Option.some.inj h
    exact ⟨hk.symm, by rw [← hk]; exact hy'.symm, hcond.1.1, hcond.1.2, hcond.2⟩
  · cases h

/-- A successful `ipM` fire has a left boundary and a right boundary just
after the consumed characters. -/
theorem ipM_some (p : Option Char) (y : List Char) (n : Nat)
    (h : ipM p y = some n) :
    bdryB p = true ∧ nonWordHead (y.drop (n + 1)) = true := by
  unfold ipM at h
  by_cases hb : bdryB p = true
  case neg =>
    rw [if_neg hb] at h
    cases h
  case pos =>
  rw [if_pos hb] at h
  refine ⟨hb, ?_⟩
  cases ho1 : octDot y with
  | none => simp [ho1] at h
  | some v1 =>
  obtain ⟨n1, y1⟩ := v1
  simp only [ho1] at h
  cases ho2 : octDot y1 with
  | none => simp [ho2] at h
  | some v2 =>
  obtain ⟨n2, y2⟩ := v2
  simp only [ho2] at h
  cases ho3 : octDot y2 with
  | none => simp [ho3] at h
  | some v3 =>
  obtain ⟨n3, y3⟩ := v3
  simp only [ho3] at h
  split at h
  case isFalse => cases h
  case isTrue hcond =>
  simp only [Bool.and_eq_true, decide_eq_true_eq] at hcond
  set r4 := drun y3 with hr4
  have hn : n = n1 + n2 + n3 + r4 - 1 := (Option.some.inj h).symm
  obtain ⟨hk1, hy1, hr1a, hr1b, _⟩ := octDot_some y n1 y1 ho1
  obtain ⟨hk2, hy2, hr2a, hr2b, _⟩ := octDot_some y1 n2 y2 ho2
  obtain ⟨hk3, hy3, hr3a, hr3b, _⟩ := octDot_some y2 n3 y3 ho3
  have hdecomp : y3.drop r4 = y.drop (n + 1) := by
    rw [hy3, hy2, hy1, List.drop_drop, List.drop_drop, List.drop_drop]
    congr 1
    omega
  rw [← hdecomp]
  exact hcond.2

/-- Context at a position beyond a leading block is read inside the tail. -/
theorem ctxAt_append_ge (p p' : Option Char) (R w : List Char) (i : Nat)
    (hi : R.length + 1 ≤ i) :
    ctxAt p (R ++ w) i = ctxAt p' w (i - R.length) := by
  unfold ctxAt
  rw [if_neg (by omega), if_neg (by omega),
    List.getElem?_append_right (by omega)]
  congr 1
  omega

/-- Dropping beyond a leading block drops inside the tail. -/
theorem drop_append_ge (R w : List Char) (i : Nat) (hi : R.length ≤ i) :
    (R ++ w).drop i = w.drop (i - R.length) := by
  rw [show i = R.length + (i - R.length) by omega, List.drop_append]
  congr 1
  omega

/-- The HASH pass leaves no position where its own matcher could fire:
kept long hex runs keep their failing boundary, and replaced runs leave
`{HASH}` text whose hex runs are tiny, with a non-word character (the old
right boundary) immediately after the replacement. -/
theorem noFire_hashSub :
    ∀ (n : Nat) (l : List Char), l.length ≤ n → ∀ p,
      NoFireM hashM p (reSub hashM ("{HASH}".toList) p l) := by
  intro n
  induction n with
  | zero =>
    intro l hl p
    have h0 : l = [] := List.length_eq_zero.mp (Nat.le_zero.mp hl)
    subst h0
    intro i
    rw [reSub_nil, List.drop_nil]
    exact hashM_nil _
  | succ n ih =>
    intro l hl p
    cases l with
    | nil =>
      intro i
      rw [reSub_nil, List.drop_nil]
      exact hashM_nil _
    | cons c cs =>
      cases hM : hashM p (c :: cs) with
      | none =>
        intro i
        cases i with
        | zero =>
          show hashM p ((reSub hashM ("{HASH}".toList) p (c :: cs)).drop 0) = none
          rw [List.drop_zero]
          refine hash_head_keep hashM ("{HASH}".toList) (by decide) ?_
            (fun c' y hw => hashM_none_word c' y hw) c cs p hM hM
          intro c' hc'
          have : c' = '{' := by
            have hh : ("{HASH}".toList).head? = some '{' := rfl
            rw [hh] at hc'
            exact (Option.some.inj hc').symm
          rw [this]
          rfl
        | succ i' =>
          rw [reSub_cons, hM, ctxAt_cons, List.drop_succ_cons]
          exact ih cs (Nat.le_of_succ_le_succ hl) (some c) i'
      | some k =>
        obtain ⟨hb, h32, htr, hk⟩ := hashM_fire p (c :: cs) k hM
        have hk1 : k + 1 = hrun (c :: cs) := by omega
        have hrest : cs.drop k = (c :: cs).drop (hrun (c :: cs)) := by
          rw [← hk1, List.drop_succ_cons]
        have hrest0 : hrun (cs.drop k) = 0 := by
          rw [hrest]
          exact hrun_zero_of_nonWordHead _ htr
        intro i
        rw [reSub_cons]
        simp only [hM]
        by_cases hi6 : i < 6
        · have hexp : "{HASH}".toList ++ reSub hashM ("{HASH}".toList) ((c :: cs)[k]?) (cs.drop k) =
              '{' :: 'H' :: 'A' :: 'S' :: 'H' :: '}' ::
                reSub hashM ("{HASH}".toList) ((c :: cs)[k]?) (cs.drop k) := rfl
          rw [hexp]
          interval_cases i
          · apply hashM_none_short
            show crun isHexC ('{' :: _) ≤ 31
            rw [crun_cons, if_neg (by decide)]
            omega
          · apply hashM_none_short
            show crun isHexC ('H' :: _) ≤ 31
            rw [crun_cons, if_neg (by decide)]
            omega
          · apply hashM_none_short
            show crun isHexC ('A' :: 'S' :: _) ≤ 31
            rw [crun_cons, if_pos (by decide), crun_cons, if_neg (by decide)]
            omega
          · apply hashM_none_short
            show crun isHexC ('S' :: _) ≤ 31
            rw [crun_cons, if_neg (by decide)]
            omega
          · apply hashM_none_short
            show crun isHexC ('H' :: _) ≤ 31
            rw [crun_cons, if_neg (by decide)]
            omega
          · apply hashM_none_short
            show crun isHexC ('}' :: _) ≤ 31
            rw [crun_cons, if_neg (by decide)]
            omega
        · by_cases hi7 : i = 6
          · subst hi7
            apply hashM_none_short
            have hd : ("{HASH}".toList ++ reSub hashM ("{HASH}".toList) ((c :: cs)[k]?) (cs.drop k)).drop 6 =
                reSub hashM ("{HASH}".toList) ((c :: cs)[k]?) (cs.drop k) := by
              apply drop_append_len
              rfl
            rw [hd]
            have hle : hrun (reSub hashM ("{HASH}".toList) ((c :: cs)[k]?) (cs.drop k)) ≤
                hrun (cs.drop k) := by
              refine crun_reSub_le isHexC hashM ("{HASH}".toList) (by decide) ?_
                (cs.drop k).length (cs.drop k) (le_refl _) ((c :: cs)[k]?)
              intro c' hc'
              have : c' = '{' := by
                have hh : ("{HASH}".toList).head? = some '{' := rfl
                rw [hh] at hc'
                exact (Option.some.inj hc').symm
              rw [this]
              rfl
            omega
          · have hige : 7 ≤ i := by omega
            rw [ctxAt_append_ge p ((c :: cs)[k]?) ("{HASH}".toList) _ i (by
              show 6 + 1 ≤ i
              omega)]
            rw [drop_append_ge _ _ i (by show 6 ≤ i; omega)]
            show hashM (ctxAt ((c :: cs)[k]?)
              (reSub hashM ("{HASH}".toList) ((c :: cs)[k]?) (cs.drop k)) (i - 6))
              ((reSub hashM ("{HASH}".toList) ((c :: cs)[k]?) (cs.drop k)).drop (i - 6)) = none
            refine ih (cs.drop k) ?_ ((c :: cs)[k]?) (i - 6)
            have := List.length_drop k cs
            have hlen : (c :: cs).length = cs.length + 1 := rfl
            omega

/-- The IP pass preserves the absence of HASH-matcher fires: kept heads
reuse the core head argument, and the `\x7bIP\x7d` replacement text has no hex
run of length 32, while the character after a replaced address is a
non-word character. -/
theorem noFire_hash_ipSub :
    ∀ (n : Nat) (l : List Char), l.length ≤ n → ∀ p,
      NoFireM hashM p l → NoFireM hashM p (reSub ipM ("{IP}".toList) p l) := by
  intro n
  induction n with
  | zero =>
    intro l hl p _
    have h0 : l = [] := List.length_eq_zero.mp (Nat.le_zero.mp hl)
    subst h0
    intro i
    rw [reSub_nil, List.drop_nil]
    exact hashM_nil _
  | succ n ih =>
    intro l hl p h
    cases l with
    | nil =>
      intro i
      rw [reSub_nil, List.drop_nil]
      exact hashM_nil _
    | cons c cs =>
      have hh0 : hashM p (c :: cs) = none := by
        have := h 0
        rwa [ctxAt_zero, List.drop_zero] at this
      cases hM : ipM p (c :: cs) with
      | none =>
        intro i
        cases i with
        | zero =>
          show hashM p ((reSub ipM ("{IP}".toList) p (c :: cs)).drop 0) = none
          rw [List.drop_zero]
          refine hash_head_keep ipM ("{IP}".toList) (by decide) ?_
            (fun c' y hw => ipM_none_word c' y hw) c cs p hM hh0
          intro c' hc'
          have : c' = '{' := by
            have hh : ("{IP}".toList).head? = some '{' := rfl
            rw [hh] at hc'
            exact (Option.some.inj hc').symm
          rw [this]
          rfl
        | succ i' =>
          rw [reSub_cons]
          simp only [hM]
          rw [ctxAt_cons, List.drop_succ_cons]
          exact ih cs (Nat.le_of_succ_le_succ hl) (some c) (NoFireM_cons _ _ _ _ h) i'
      | some k =>
        obtain ⟨hb, htr⟩ := ipM_some p (c :: cs) k hM
        have hrest0 : hrun (cs.drop k) = 0 := by
          have : (c :: cs).drop (k + 1) = cs.drop k := List.drop_succ_cons
          rw [this] at htr
          exact hrun_zero_of_nonWordHead _ htr
        have htail : NoFireM hashM ((c :: cs)[k]?) (cs.drop k) := by
          have := NoFireM_drop hashM p (c :: cs) h (k + 1) (by omega)
          simp only [Nat.add_sub_cancel, List.drop_succ_cons] at this
          exact this
        intro i
        rw [reSub_cons]
        simp only [hM]
        by_cases hi4 : i < 4
        · have hexp : "{IP}".toList ++ reSub ipM ("{IP}".toList) ((c :: cs)[k]?) (cs.drop k) =
              '{' :: 'I' :: 'P' :: '}' ::
                reSub ipM ("{IP}".toList) ((c :: cs)[k]?) (cs.drop k) := rfl
          rw [hexp]
          interval_cases i
          · apply hashM_none_short
            show crun isHexC ('{' :: _) ≤ 31
            rw [crun_cons, if_neg (by decide)]
            omega
          · apply hashM_none_short
            show crun isHexC ('I' :: _) ≤ 31
            rw [crun_cons, if_neg (by decide)]
            omega
          · apply hashM_none_short
            show crun isHexC ('P' :: _) ≤ 31
            rw [crun_cons, if_neg (by decide)]
            omega
          · apply hashM_none_short
            show crun isHexC ('}' :: _) ≤ 31
            rw [crun_cons, if_neg (by decide)]
            omega
        · by_cases hi5 : i = 4
          · subst hi5
            apply hashM_none_short
            have hd : ("{IP}".toList ++ reSub ipM ("{IP}".toList) ((c :: cs)[k]?) (cs.drop k)).drop 4 =
                reSub ipM ("{IP}".toList) ((c :: cs)[k]?) (cs.drop k) := by
              apply drop_append_len
              rfl
            rw [hd]
            have hle : hrun (reSub ipM ("{IP}".toList) ((c :: cs)[k]?) (cs.drop k)) ≤
                hrun (cs.drop k) := by
              refine crun_reSub_le isHexC ipM ("{IP}".toList) (by decide) ?_
                (cs.drop k).length (cs.drop k) (le_refl _) ((c :: cs)[k]?)
              intro c' hc'
              have : c' = '{' := by
                have hh : ("{IP}".toList).head? = some '{' := rfl
                rw [hh] at hc'
                exact (Option.some.inj hc').symm
              rw [this]
              rfl
            omega
          · have hige : 5 ≤ i := by omega
            rw [ctxAt_append_ge p ((c :: cs)[k]?) ("{IP}".toList) _ i (by
              show 4 + 1 ≤ i
              omega)]
            rw [drop_append_ge _ _ i (by show 4 ≤ i; omega)]
            show hashM (ctxAt ((c :: cs)[k]?)
              (reSub ipM ("{IP}".toList) ((c :: cs)[k]?) (cs.drop k)) (i - 4))
              ((reSub ipM ("{IP}".toList) ((c :: cs)[k]?) (cs.drop k)).drop (i - 4)) = none
            refine ih (cs.drop k) ?_ ((c :: cs)[k]?) htail (i - 4)
            have := List.length_drop k cs
            have hlen : (c :: cs).length = cs.length + 1 := rfl
            omega

/-- The head after a drop is indexing. -/
theorem head_drop (l : List Char) (r : Nat) : (l.drop r).head? = l[r]? := by
  rw [List.head?_eq_getElem?, List.getElem?_drop, Nat.add_zero]

/-- A present index is within bounds. -/
theorem lt_of_getElem_some (l : List Char) (i : Nat) (d : Char)
    (h : l[i]? = some d) : i < l.length := by
  by_contra hc
  rw [List.getElem?_eq_none (by omega)] at h
  cases h

/-- A leading run terminated by a present failing character is determined
by any sufficiently long shared prefix. -/
theorem crun_congr (q : Char → Bool) (a b : List Char) (t : Nat)
    (htake : a.take t = b.take t) (hlt : crun q a + 1 ≤ t)
    (hterm : crun q a < a.length) : crun q b = crun q a := by
  have hd : a[crun q a]? = some (a.get ⟨crun q a, hterm⟩) :=
    List.getElem?_eq_getElem hterm
  set r := crun q a with hr
  set d := a.get ⟨r, hterm⟩ with hdd
  have hqd : q d = false := by
    apply crun_stop q a
    rw [head_drop]
    exact hd
  have hbr : b[r]? = some d := by
    have h1 : (a.take t)[r]? = some d := by
      rw [List.getElem?_take, if_pos (by omega)]
      exact hd
    rw [htake, List.getElem?_take, if_pos (by omega)] at h1
    exact h1
  have hbtake : b.take r = a.take r := by
    have h2 : (b.take t).take r = b.take r := by
      rw [List.take_take]
      congr 1
      omega
    have h3 : (a.take t).take r = a.take r := by
      rw [List.take_take]
      congr 1
      omega
    rw [← h2, ← htake, h3]
  have hhead : (b.drop r).head? = some d := by
    rw [head_drop]
    exact hbr
  have hrb : r < b.length := lt_of_getElem_some b r d hbr
  have hsplit : b.take r ++ b.drop r = b := List.take_append_drop r b
  calc crun q b = crun q (b.take r ++ b.drop r) := by rw [hsplit]
    _ = (b.take r).length := by
        apply crun_append_run
        · intro x hx
          rw [hbtake] at hx
          exact take_crun_all q a x hx
        · intro x hx
          rw [hhead] at hx
          rw [show x = d from (Option.some.inj hx).symm]
          exact hqd
    _ = r := by
        rw [List.length_take]
        omega

/-- Shared prefixes stay shared after a drop. -/
theorem drop_take_congr (a b : List Char) (t kk : Nat)
    (htake : a.take t = b.take t) :
    (a.drop kk).take (t - kk) = (b.drop kk).take (t - kk) := by
  rw [← List.drop_take, ← List.drop_take, htake]

/-- Every character consumed by an octet step is a digit or a dot. -/
theorem octet_take (y : List Char) (r : Nat) (hr : r = drun y)
    (hdot : (y.drop r).head? = some '.') :
    ∀ x ∈ y.take (r + 1), isDigitC x = true ∨ x = '.' := by
  intro x hx
  rw [List.take_add, List.mem_append] at hx
  cases hx with
  | inl h =>
    left
    subst hr
    exact take_crun_all isDigitC y x h
  | inr h =>
    right
    cases hyd : y.drop r with
    | nil =>
      rw [hyd] at h
      cases h
    | cons d ds =>
      rw [hyd] at h hdot
      have hde : d = '.' := Option.some.inj hdot
      rw [show (1 : Nat) = 0 + 1 from rfl, List.take_succ_cons, List.take_zero] at h
      rw [List.mem_singleton] at h
      rw [h, hde]

/-- An octet step is determined by any shared prefix that covers the
consumed characters and the terminating dot. -/
theorem octDot_congr (a b : List Char) (kk : Nat) (a' : List Char) (t : Nat)
    (h : octDot a = some (kk, a'))
    (ht : kk + 1 ≤ t) (htake : a.take t = b.take t) :
    octDot b = some (kk, b.drop kk) ∧
      a'.take (t - kk) = (b.drop kk).take (t - kk) := by
  obtain ⟨hk, ha', hr1, hr3, hdot⟩ := octDot_some a kk a' h
  have hterm : drun a < a.length := by
    have hsome : a[drun a]? = some '.' := by
      rw [← head_drop]
      exact hdot
    exact lt_of_getElem_some a _ _ hsome
  have hdb : drun b = drun a :=
    crun_congr isDigitC a b t htake (by show drun a + 1 ≤ t; omega) hterm
  have hdotb : (b.drop (drun a)).head? = some '.' := by
    rw [head_drop]
    have h1 : (a.take t)[drun a]? = some '.' := by
      rw [List.getElem?_take, if_pos (by omega), ← head_drop]
      exact hdot
    rw [htake, List.getElem?_take, if_pos (by omega)] at h1
    exact h1
  constructor
  · unfold octDot
    rw [hdb, if_pos (by
      simp only [Bool.and_eq_true, decide_eq_true_eq]
      exact ⟨⟨hr1, hr3⟩, hdotb⟩)]
    rw [hk]
  · rw [ha']
    exact drop_take_congr a b t kk htake

/-- Dissection of an `ipM` fire: the consumed region is long, consists of
digits and dots, and ends in a digit. -/
theorem ipM_struct (p : Option Char) (y : List Char) (n : Nat)
    (h : ipM p y = some n) :
    6 ≤ n ∧
    (∀ x ∈ y.take (n + 1), isDigitC x = true ∨ x = '.') ∧
    (∃ d, y[n]? = some d ∧ isDigitC d = true) := by
  unfold ipM at h
  by_cases hb : bdryB p = true
  case neg =>
    rw [if_neg hb] at h
    cases h
  case pos =>
  rw [if_pos hb] at h
  cases ho1 : octDot y with
  | none => simp [ho1] at h
  | some v1 =>
  obtain ⟨n1, y1⟩ := v1
  simp only [ho1] at h
  cases ho2 : octDot y1 with
  | none => simp [ho2] at h
  | some v2 =>
  obtain ⟨n2, y2⟩ := v2
  simp only [ho2] at h
  cases ho3 : octDot y2 with
  | none => simp [ho3] at h
  | some v3 =>
  obtain ⟨n3, y3⟩ := v3
  simp only [ho3] at h
  split at h
  case isFalse => cases h
  case isTrue hcond =>
  simp only [Bool.and_eq_true, decide_eq_true_eq] at hcond
  obtain ⟨⟨hr4a, hr4b⟩, htr⟩ := hcond
  have hm : n = n1 + n2 + n3 + drun y3 - 1 := (Option.some.inj h).symm
  obtain ⟨hk1, hy1, hr1a, hr1b, hdot1⟩ := octDot_some y n1 y1 ho1
  obtain ⟨hk2, hy2, hr2a, hr2b, hdot2⟩ := octDot_some y1 n2 y2 ho2
  obtain ⟨hk3, hy3, hr3a, hr3b, hdot3⟩ := octDot_some y2 n3 y3 ho3
  refine ⟨by omega, ?_, ?_⟩
  · intro x hx
    have hsum : n + 1 = n1 + (n2 + (n3 + drun y3)) := by omega
    rw [hsum, List.take_add, ← hy1, List.mem_append] at hx
    cases hx with
    | inl hx0 =>
      rw [hk1] at hx0
      exact octet_take y (drun y) rfl hdot1 x hx0
    | inr hx1 =>
      rw [List.take_add, ← hy2, List.mem_append] at hx1
      cases hx1 with
      | inl hx2 =>
        rw [hk2] at hx2
        exact octet_take y1 (drun y1) rfl hdot2 x hx2
      | inr hx3 =>
        rw [List.take_add, ← hy3, List.mem_append] at hx3
        cases hx3 with
        | inl hx4 =>
          rw [hk3] at hx4
          exact octet_take y2 (drun y2) rfl hdot3 x hx4
        | inr hx5 =>
          left
          exact take_crun_all isDigitC y3 x hx5
  · have hlen4 : drun y3 ≤ y3.length := crun_le_length isDigitC y3
    have hlt : drun y3 - 1 < y3.length := by omega
    have hgen : ∀ j, y3[j]? = y[n1 + (n2 + (n3 + j))]? := by
      intro j
      rw [hy3, hy2, hy1, List.getElem?_drop, List.getElem?_drop,
        List.getElem?_drop]
    have hyn : y[n]? = y3[drun y3 - 1]? := by
      rw [hgen]
      congr 1
      omega
    refine ⟨y3.get ⟨drun y3 - 1, hlt⟩, ?_, ?_⟩
    · rw [hyn]
      exact List.getElem?_eq_getElem hlt
    · refine crun_mem isDigitC y3 (drun y3 - 1) ?_ _ (List.getElem?_eq_getElem hlt)
      show drun y3 - 1 < drun y3
      omega

/-- An `ipM` fire transfers to any string sharing the consumed region and
the right-boundary character. -/
theorem ipM_congr (p : Option Char) (a b : List Char) (m : Nat)
    (h : ipM p a = some m) (hlen : m + 2 ≤ a.length)
    (htake : a.take (m + 2) = b.take (m + 2)) : ipM p b = some m := by
  unfold ipM at h ⊢
  by_cases hb : bdryB p = true
  case neg =>
    rw [if_neg hb] at h
    cases h
  case pos =>
  rw [if_pos hb] at h
  rw [if_pos hb]
  cases ho1 : octDot a with
  | none => simp [ho1] at h
  | some v1 =>
  obtain ⟨n1, y1⟩ := v1
  simp only [ho1] at h
  cases ho2 : octDot y1 with
  | none => simp [ho2] at h
  | some v2 =>
  obtain ⟨n2, y2⟩ := v2
  simp only [ho2] at h
  cases ho3 : octDot y2 with
  | none => simp [ho3] at h
  | some v3 =>
  obtain ⟨n3, y3⟩ := v3
  simp only [ho3] at h
  split at h
  case isFalse => cases h
  case isTrue hcond =>
  simp only [Bool.and_eq_true, decide_eq_true_eq] at hcond
  obtain ⟨⟨hr4a, hr4b⟩, htr⟩ := hcond
  have hm : m = n1 + n2 + n3 + drun y3 - 1 := (Option.some.inj h).symm
  obtain ⟨hk1, hy1, hr1a, hr1b, hdot1⟩ := octDot_some a n1 y1 ho1
  obtain ⟨hk2, hy2, hr2a, hr2b, hdot2⟩ := octDot_some y1 n2 y2 ho2
  obtain ⟨hk3, hy3, hr3a, hr3b, hdot3⟩ := octDot_some y2 n3 y3 ho3
  obtain ⟨hob1, htake1⟩ := octDot_congr a b n1 y1 (m + 2) ho1 (by omega) htake
  obtain ⟨hob2, htake2⟩ :=
    octDot_congr y1 (b.drop n1) n2 y2 (m + 2 - n1) ho2 (by omega) htake1
  obtain ⟨hob3, htake3⟩ :=
    octDot_congr y2 ((b.drop n1).drop n2) n3 y3 (m + 2 - n1 - n2) ho3
      (by omega) htake2
  have hdecompg : ∀ j, y3.drop j = a.drop (n1 + (n2 + (n3 + j))) := by
    intro j
    rw [hy3, hy2, hy1, List.drop_drop, List.drop_drop, List.drop_drop]
  have hdecomp : y3.drop (drun y3) = a.drop (m + 1) := by
    rw [hdecompg]
    congr 1
    omega
  have hm1 : m + 1 < a.length := by omega
  have hdsome : a[m + 1]? = some (a.get ⟨m + 1, hm1⟩) :=
    List.getElem?_eq_getElem hm1
  have hdnw : isWordC (a.get ⟨m + 1, hm1⟩) = false := by
    rw [hdecomp] at htr
    cases hc : a.drop (m + 1) with
    | nil =>
      exfalso
      have : a[m + 1]? = none := by
        rw [← head_drop, hc]
        rfl
      rw [hdsome] at this
      cases this
    | cons e es =>
      rw [hc] at htr
      have he : e = a.get ⟨m + 1, hm1⟩ := by
        have h1 : a[m + 1]? = some e := by
          rw [← head_drop, hc]
          rfl
        rw [hdsome] at h1
        exact (Option.some.inj h1).symm
      have htr2 : (!isWordC e) = true := htr
      rw [← he]
      cases hw : isWordC e with
      | false => rfl
      | true =>
        rw [hw] at htr2
        exact absurd htr2 (by decide)
  have hterm4 : drun y3 < y3.length := by
    have hsome : y3[drun y3]? = some (a.get ⟨m + 1, hm1⟩) := by
      rw [← head_drop, hdecomp, head_drop]
      exact hdsome
    exact lt_of_getElem_some y3 _ _ hsome
  have hdb3 : drun (((b.drop n1).drop n2).drop n3) = drun y3 := by
    refine crun_congr isDigitC y3 (((b.drop n1).drop n2).drop n3)
      (m + 2 - n1 - n2 - n3) htake3 ?_ hterm4
    show drun y3 + 1 ≤ m + 2 - n1 - n2 - n3
    omega
  have hbm1 : b[m + 1]? = some (a.get ⟨m + 1, hm1⟩) := by
    have h1 : (a.take (m + 2))[m + 1]? = some (a.get ⟨m + 1, hm1⟩) := by
      rw [List.getElem?_take, if_pos (by omega)]
      exact hdsome
    rw [htake, List.getElem?_take, if_pos (by omega)] at h1
    exact h1
  have hdecompb : (((b.drop n1).drop n2).drop n3).drop (drun y3) =
      b.drop (m + 1) := by
    rw [List.drop_drop, List.drop_drop, List.drop_drop]
    congr 1
    omega
  have hnwb : nonWordHead ((((b.drop n1).drop n2).drop n3).drop (drun y3)) = true := by
    rw [hdecompb]
    cases hc : b.drop (m + 1) with
    | nil => rfl
    | cons e es =>
      have he : e = a.get ⟨m + 1, hm1⟩ := by
        have h1 : b[m + 1]? = some e := by
          rw [← head_drop, hc]
          rfl
        rw [hbm1] at h1
        exact (Option.some.inj h1).symm
      show (!isWordC e) = true
      rw [he, hdnw]
      rfl
  simp only [hob1, hob2, hob3]
  rw [hdb3, if_pos (by
    simp only [Bool.and_eq_true, decide_eq_true_eq]
    exact ⟨⟨hr4a, hr4b⟩, hnwb⟩)]
  congr 1

/-- The look-behind context inside a list is the previous element. -/
theorem ctxAt_cons_get (c : Char) (cs : List Char) (j : Nat) :
    ctxAt (some c) cs j = (c :: cs)[j]? := by
  unfold ctxAt
  cases j with
  | zero =>
    rw [if_pos rfl, List.getElem?_cons_zero]
  | succ j' =>
    rw [if_neg (by omega), List.getElem?_cons_succ]
    simp only [Nat.add_sub_cancel]

/-- If `ipM` declines at the head of `c :: cs`, it still declines at the
head of the IP pass's output on `c :: cs`: a new fire could only use a
replacement brace inside its consumed region (impossible: those are
digits and dots), end right before a replacement (impossible: the fire
that produced the replacement had a digit-preceded position, against the
left-boundary requirement), or lie entirely inside the untouched prefix
(then it would already have fired on the input). -/
theorem ip_head_keep (c : Char) (cs : List Char) (p : Option Char)
    (hM : ipM p (c :: cs) = none) :
    ipM p (reSub ipM ("{IP}".toList) p (c :: cs)) = none := by
  rw [reSub_cons]
  simp only [hM]
  cases hfire : ipM p (c :: reSub ipM ("{IP}".toList) (some c) cs) with
  | none => rfl
  | some m =>
  exfalso
  rcases reSub_first_fire ipM ("{IP}".toList) cs.length cs (le_refl _) (some c) with
    hid | ⟨j, k, hj, hkeep, hfj, hexp⟩
  · rw [hid, hM] at hfire
    cases hfire
  · rw [hexp] at hfire
    obtain ⟨hm6, hchars, d, hd, hdig⟩ := ipM_struct p _ m hfire
    have hAlen : (cs.take j).length = j := by
      rw [List.length_take]
      omega
    have htakeAux : ∀ (A z : List Char), A.length = j → (A ++ z).take j = A := by
      intro A z hA
      rw [← hA, List.take_left]
    have htakeW : (cs.take j ++ "{IP}".toList ++
        reSub ipM ("{IP}".toList) ((cs.drop j)[k]?) ((cs.drop j).drop (k + 1))).take j =
        cs.take j := by
      rw [List.append_assoc]
      exact htakeAux _ _ hAlen
    have htakeC : (c :: (cs.take j ++ "{IP}".toList ++
        reSub ipM ("{IP}".toList) ((cs.drop j)[k]?) ((cs.drop j).drop (k + 1)))).take (j + 1) =
        (c :: cs).take (j + 1) := by
      rw [List.take_succ_cons, List.take_succ_cons, htakeW]
    have hidx : ∀ i, i < j + 1 →
        (c :: (cs.take j ++ "{IP}".toList ++
          reSub ipM ("{IP}".toList) ((cs.drop j)[k]?) ((cs.drop j).drop (k + 1))))[i]? =
        (c :: cs)[i]? := by
      intro i hi
      have h1 : ((c :: (cs.take j ++ "{IP}".toList ++
          reSub ipM ("{IP}".toList) ((cs.drop j)[k]?) ((cs.drop j).drop (k + 1)))).take (j + 1))[i]? =
          (c :: (cs.take j ++ "{IP}".toList ++
          reSub ipM ("{IP}".toList) ((cs.drop j)[k]?) ((cs.drop j).drop (k + 1))))[i]? := by
        rw [List.getElem?_take, if_pos hi]
      have h2 : (((c :: cs).take (j + 1)))[i]? = (c :: cs)[i]? := by
        rw [List.getElem?_take, if_pos hi]
      rw [← h1, ← h2, htakeC]
    rcases Nat.lt_trichotomy m j with hmj | hmj | hmj
    · -- the whole fire sits inside the untouched prefix: transfer it back
      have hWlen : j + 1 ≤ (c :: (cs.take j ++ "{IP}".toList ++
          reSub ipM ("{IP}".toList) ((cs.drop j)[k]?) ((cs.drop j).drop (k + 1)))).length := by
        have h1 := List.length_append (cs.take j ++ "{IP}".toList)
          (reSub ipM ("{IP}".toList) ((cs.drop j)[k]?) ((cs.drop j).drop (k + 1)))
        have h2 := List.length_append (cs.take j) ("{IP}".toList)
        have h3 : (c :: (cs.take j ++ "{IP}".toList ++
            reSub ipM ("{IP}".toList) ((cs.drop j)[k]?) ((cs.drop j).drop (k + 1)))).length =
            (cs.take j ++ "{IP}".toList ++
            reSub ipM ("{IP}".toList) ((cs.drop j)[k]?) ((cs.drop j).drop (k + 1))).length + 1 :=
          List.length_cons _ _
        omega
      have htk : (c :: (cs.take j ++ "{IP}".toList ++
          reSub ipM ("{IP}".toList) ((cs.drop j)[k]?) ((cs.drop j).drop (k + 1)))).take (m + 2) =
          (c :: cs).take (m + 2) := by
        have h1 : ∀ (z : List Char), z.take (m + 2) = (z.take (j + 1)).take (m + 2) := by
          intro z
          rw [List.take_take]
          congr 1
          omega
        rw [h1, htakeC, ← h1]
      have := ipM_congr p _ (c :: cs) m hfire (by omega) htk
      rw [hM] at this
      cases this
    · -- the fire ends exactly where the replacement starts: the fire that
      -- produced the replacement would sit right after a digit
      have hdd : (c :: cs)[j]? = some d := by
        rw [hidx m (by omega)] at hd
        rw [← hmj]
        exact hd
      have hctx : ctxAt (some c) cs j = some d := by
        rw [ctxAt_cons_get, hdd]
      rw [hctx, ipM_none_word d _ (digit_word d hdig)] at hfj
      cases hfj
    · -- the consumed region would contain the replacement's opening brace
      have hbrace : (c :: (cs.take j ++ "{IP}".toList ++
          reSub ipM ("{IP}".toList) ((cs.drop j)[k]?) ((cs.drop j).drop (k + 1))))[j + 1]? =
          some '{' := by
        rw [List.getElem?_cons_succ, List.append_assoc,
          List.getElem?_append_right (by omega)]
        rw [hAlen]
        have hz : j - j = 0 := by omega
        rw [hz]
        rfl
      have hmem : '{' ∈ (c :: (cs.take j ++ "{IP}".toList ++
          reSub ipM ("{IP}".toList) ((cs.drop j)[k]?) ((cs.drop j).drop (k + 1)))).take (m + 1) := by
        have h1 : ((c :: (cs.take j ++ "{IP}".toList ++
            reSub ipM ("{IP}".toList) ((cs.drop j)[k]?) ((cs.drop j).drop (k + 1)))).take (m + 1))[j + 1]? =
            some '{' := by
          rw [List.getElem?_take, if_pos (by omega)]
          exact hbrace
        exact List.getElem?_mem h1
      rcases hchars '{' hmem with h1 | h1
      · exact absurd h1 (by decide)
      · exact absurd h1 (by decide)

/-- The IP pass leaves no position where its own matcher could fire. -/
theorem noFire_ipSub :
    ∀ (n : Nat) (l : List Char), l.length ≤ n → ∀ p,
      NoFireM ipM p (reSub ipM ("{IP}".toList) p l) := by
  intro n
  induction n with
  | zero =>
    intro l hl p
    have h0 : l = [] := List.length_eq_zero.mp (Nat.le_zero.mp hl)
    subst h0
    intro i
    rw [reSub_nil, List.drop_nil]
    exact ipM_nil _
  | succ n ih =>
    intro l hl p
    cases l with
    | nil =>
      intro i
      rw [reSub_nil, List.drop_nil]
      exact ipM_nil _
    | cons c cs =>
      cases hM : ipM p (c :: cs) with
      | none =>
        intro i
        cases i with
        | zero =>
          show ipM p ((reSub ipM ("{IP}".toList) p (c :: cs)).drop 0) = none
          rw [List.drop_zero]
          exact ip_head_keep c cs p hM
        | succ i' =>
          rw [reSub_cons]
          simp only [hM]
          rw [ctxAt_cons, List.drop_succ_cons]
          exact ih cs (Nat.le_of_succ_le_succ hl) (some c) i'
      | some k =>
        obtain ⟨hb, htr⟩ := ipM_some p (c :: cs) k hM
        rw [List.drop_succ_cons] at htr
        intro i
        rw [reSub_cons]
        simp only [hM]
        by_cases hi4 : i < 4
        · have hexp : "{IP}".toList ++ reSub ipM ("{IP}".toList) ((c :: cs)[k]?) (cs.drop k) =
              '{' :: 'I' :: 'P' :: '}' ::
                reSub ipM ("{IP}".toList) ((c :: cs)[k]?) (cs.drop k) := rfl
          rw [hexp]
          interval_cases i
          · apply ipM_none_head
            intro c' hc'
            rw [← Option.some.inj hc']
            rfl
          · apply ipM_none_head
            intro c' hc'
            rw [← Option.some.inj hc']
            rfl
          · apply ipM_none_head
            intro c' hc'
            rw [← Option.some.inj hc']
            rfl
          · apply ipM_none_head
            intro c' hc'
            rw [← Option.some.inj hc']
            rfl
        · by_cases hi5 : i = 4
          · subst hi5
            have hd : ("{IP}".toList ++ reSub ipM ("{IP}".toList) ((c :: cs)[k]?) (cs.drop k)).drop 4 =
                reSub ipM ("{IP}".toList) ((c :: cs)[k]?) (cs.drop k) := by
              apply drop_append_len
              rfl
            rw [hd]
            apply ipM_none_head
            intro c' hc'
            rcases reSub_head ipM ("{IP}".toList) (by decide) ((c :: cs)[k]?) (cs.drop k) with hh | hh
            · rw [hh] at hc'
              cases hck : cs.drop k with
              | nil =>
                rw [hck] at hc'
                cases hc'
              | cons e es =>
                rw [hck] at hc' htr
                have hce : e = c' := Option.some.inj hc'
                have htr2 : (!isWordC e) = true := htr
                rw [hce] at htr2
                apply nonword_nondigit
                cases hw : isWordC c' with
                | false => rfl
                | true =>
                  rw [hw] at htr2
                  exact absurd htr2 (by decide)
            · rw [hh] at hc'
              rw [← Option.some.inj hc']
              rfl
          · have hige : 5 ≤ i := by omega
            rw [ctxAt_append_ge p ((c :: cs)[k]?) ("{IP}".toList) _ i (by
              show 4 + 1 ≤ i
              omega)]
            rw [drop_append_ge _ _ i (by show 4 ≤ i; omega)]
            show ipM (ctxAt ((c :: cs)[k]?)
              (reSub ipM ("{IP}".toList) ((c :: cs)[k]?) (cs.drop k)) (i - 4))
              ((reSub ipM ("{IP}".toList) ((c :: cs)[k]?) (cs.drop k)).drop (i - 4)) = none
            refine ih (cs.drop k) ?_ ((c :: cs)[k]?) (i - 4)
            have := List.length_drop k cs
            have hlen : (c :: cs).length = cs.length + 1 := rfl
            omega

/-- The scanner never maps a nonempty string to the empty string. -/
theorem reSub_ne_nil (M : Option Char → List Char → Option Nat) (R : List Char)
    (hR : R ≠ []) (p : Option Char) (l : List Char) (hl : l ≠ []) :
    reSub M R p l ≠ [] := by
  cases l with
  | nil => exact absurd rfl hl
  | cons c cs =>
    cases hM : M p (c :: cs) with
    | none =>
      rw [reSub_cons]
      simp only [hM]
      exact List.cons_ne_nil _ _
    | some k =>
      rw [reSub_cons]
      simp only [hM]
      intro hc
      exact hR (List.append_eq_nil.mp hc).1

/-- The HASH pass is the identity where its matcher never fires. -/
theorem hashSub_id (l : List Char) (h : NoFireM hashM none l) : hashSub l = l :=
  reSub_id hashM _ l.length l (le_refl _) none h

/-- The IP pass is the identity where its matcher never fires. -/
theorem ipSub_id (l : List Char) (h : NoFireM ipM none l) : ipSub l = l :=
  reSub_id ipM _ l.length l (le_refl _) none h

/-- A string satisfying all five post-pass invariants is a fixed point of
the whole substitution chain. -/
theorem applySubs_fixed (L : List Char)
    (hrun : hasRun10 L = false)
    (hnU : noShape isUuid36 36 L)
    (hnD : noShape isDate10 10 L)
    (hh : NoFireM hashM none L)
    (hi : NoFireM ipM none L) :
    applySubs (String.mk L) = String.mk L := by
  unfold applySubs
  show String.mk (ipSub (hashSub (usr2Sub (usr1Sub (dateSub (tsSub (uuidSub L))))))) =
    String.mk L
  rw [uuidSub_id L hnU, tsSub_id L hrun, dateSub_id L hnD,
    usr1Sub_id L hrun, usr2Sub_id L hrun, hashSub_id L hh, ipSub_id L hi]

/-- C4: `extract_key_pattern` is idempotent: for every input key, including
`None` and the empty string, applying it twice yields the same result as
applying it once.  The output of one application satisfies invariants that
make every pass of a second application decline everywhere: no ten-digit
run survives the TIMESTAMP pass (killing the TIMESTAMP and both USERID
matchers), no UUID or date window survives its pass or is re-created by the
brace-delimited replacements, and the HASH and IP passes leave no position
where their own matchers could fire again. -/
theorem extract_key_pattern_idempotent (key : Option String) :
    extract_key_pattern (some (extract_key_pattern key)) =
      extract_key_pattern key := by
  cases key with
  | none => decide
  | some s =>
    by_cases hs : s = ""
    · subst hs
      decide
    · have he : extract_key_pattern (some s) = applySubs s := by
        simp [extract_key_pattern, hs]
      have hl0 : s.toList ≠ [] := by
        intro hc
        apply hs
        have h1 : s = String.mk s.toList := rfl
        rw [hc] at h1
        exact h1
      have h2 : hasRun10 (tsSub (uuidSub s.toList)) = false :=
        hasRun10_tsSub _ _ (le_refl _) none
      have h3 : hasRun10 (dateSub (tsSub (uuidSub s.toList))) = false :=
        hasRun10_reSub dateM _ (by decide) (by decide) _ _ (le_refl _) none h2
      have hu1 : usr1Sub (dateSub (tsSub (uuidSub s.toList))) =
          dateSub (tsSub (uuidSub s.toList)) := usr1Sub_id _ h3
      have hu2 : usr2Sub (dateSub (tsSub (uuidSub s.toList))) =
          dateSub (tsSub (uuidSub s.toList)) := usr2Sub_id _ h3
      have hA : applySubs s =
          String.mk (ipSub (hashSub (dateSub (tsSub (uuidSub s.toList))))) := by
        unfold applySubs
        rw [hu1, hu2]
      have hrunL : hasRun10 (ipSub (hashSub (dateSub (tsSub (uuidSub s.toList))))) = false :=
        hasRun10_reSub ipM _ (by decide) (by decide) _ _ (le_refl _) none
          (hasRun10_reSub hashM _ (by decide) (by decide) _ _ (le_refl _) none h3)
      have hbrU : ∀ t, '{' ∈ t → isUuid36 t = false :=
        fun t ht => isUuid36_no_brace t '{' (Or.inl rfl) ht
      have hbrU2 : ∀ t, '}' ∈ t → isUuid36 t = false :=
        fun t ht => isUuid36_no_brace t '}' (Or.inr rfl) ht
      have hbrD : ∀ t, '{' ∈ t → isDate10 t = false :=
        fun t ht => isDate10_no_brace t '{' (Or.inl rfl) ht
      have hbrD2 : ∀ t, '}' ∈ t → isDate10 t = false :=
        fun t ht => isDate10_no_brace t '}' (Or.inr rfl) ht
      have hn1 : noShape isUuid36 36 (uuidSub s.toList) :=
        noShape_reSub_self isUuid36 36 uuidM ("{UUID}".toList) (by omega) (by decide) hbrU hbrU2
          rfl (by decide) (by decide)
          (by
            intro p y hsh
            unfold uuidM
            rw [if_pos hsh]
            intro hc
            cases hc)
          _ _ (le_refl _) none
      have hn2 : noShape isUuid36 36 (tsSub (uuidSub s.toList)) :=
        noShape_reSub_pres isUuid36 36 tsM ("{TIMESTAMP}".toList) (by omega) hbrU hbrU2 rfl
          (by decide) (by decide) _ _ (le_refl _) none hn1
      have hn3 : noShape isUuid36 36 (dateSub (tsSub (uuidSub s.toList))) :=
        noShape_reSub_pres isUuid36 36 dateM ("{DATE}".toList) (by omega) hbrU hbrU2 rfl
          (by decide) (by decide) _ _ (le_refl _) none hn2
      have hn4 : noShape isUuid36 36 (hashSub (dateSub (tsSub (uuidSub s.toList)))) :=
        noShape_reSub_pres isUuid36 36 hashM ("{HASH}".toList) (by omega) hbrU hbrU2 rfl
          (by decide) (by decide) _ _ (le_refl _) none hn3
      have hnL : noShape isUuid36 36 (ipSub (hashSub (dateSub (tsSub (uuidSub s.toList))))) :=
        noShape_reSub_pres isUuid36 36 ipM ("{IP}".toList) (by omega) hbrU hbrU2 rfl
          (by decide) (by decide) _ _ (le_refl _) none hn4
      have hd1 : noShape isDate10 10 (dateSub (tsSub (uuidSub s.toList))) :=
        noShape_reSub_self isDate10 10 dateM ("{DATE}".toList) (by omega) (by decide) hbrD hbrD2
          rfl (by decide) (by decide)
          (by
            intro p y hsh
            unfold dateM
            rw [if_pos hsh]
            intro hc
            cases hc)
          _ _ (le_refl _) none
      have hd2 : noShape isDate10 10 (hashSub (dateSub (tsSub (uuidSub s.toList)))) :=
        noShape_reSub_pres isDate10 10 hashM ("{HASH}".toList) (by omega) hbrD hbrD2 rfl
          (by decide) (by decide) _ _ (le_refl _) none hd1
      have hdL : noShape isDate10 10 (ipSub (hashSub (dateSub (tsSub (uuidSub s.toList))))) :=
        noShape_reSub_pres isDate10 10 ipM ("{IP}".toList) (by omega) hbrD hbrD2 rfl
          (by decide) (by decide) _ _ (le_refl _) none hd2
      have hh1 : NoFireM hashM none (hashSub (dateSub (tsSub (uuidSub s.toList)))) :=
        noFire_hashSub _ _ (le_refl _) none
      have hhL : NoFireM hashM none (ipSub (hashSub (dateSub (tsSub (uuidSub s.toList))))) :=
        noFire_hash_ipSub _ _ (le_refl _) none hh1
      have hiL : NoFireM ipM none (ipSub (hashSub (dateSub (tsSub (uuidSub s.toList))))) :=
        noFire_ipSub _ _ (le_refl _) none
      have hLne : ipSub (hashSub (dateSub (tsSub (uuidSub s.toList)))) ≠ [] := by
        apply reSub_ne_nil ipM _ (by decide) none
        apply reSub_ne_nil hashM _ (by decide) none
        apply reSub_ne_nil dateM _ (by decide) none
        apply reSub_ne_nil tsM _ (by decide) none
        apply reSub_ne_nil uuidM _ (by decide) none
        exact hl0
      have hTne : String.mk (ipSub (hashSub (dateSub (tsSub (uuidSub s.toList))))) ≠ "" := by
        intro hc
        apply hLne
        have h1 := congrArg String.toList hc
        exact h1
      have he2 : extract_key_pattern
          (some (String.mk (ipSub (hashSub (dateSub (tsSub (uuidSub s.toList))))))) =
          applySubs (String.mk (ipSub (hashSub (dateSub (tsSub (uuidSub s.toList)))))) := by
        show (if String.mk (ipSub (hashSub (dateSub (tsSub (uuidSub s.toList))))) = ""
            then "NO_KEY"
            else applySubs (String.mk (ipSub (hashSub (dateSub (tsSub (uuidSub s.toList))))))) =
          applySubs (String.mk (ipSub (hashSub (dateSub (tsSub (uuidSub s.toList))))))
        rw [if_neg hTne]
      rw [he, hA, he2]
      exact applySubs_fixed _ hrunL hnL hdL hhL hiL
